import Mathlib

/-!
# MANTIS retrieval core: a shallow embedding

This file embeds the retrieval subsystem of the MANTIS field-manual RAG
system (`src/main.py`): query tokenization (`tokenize_query`), platform-aware
lexical scoring and ranking (`weighted_keyword_search`), and context assembly
(`format_context`), together with proofs of the behavioural properties the
specification states about them.

Modelling conventions:
* Python strings are modelled as Lean `String`/`List Char`; `str.lower` and the
  regex character classes are modelled with ASCII semantics (all string
  constants in the program and in the properties are ASCII).
* Regex scanning (`re.findall`) is modelled by explicit left-to-right,
  leftmost-match, non-overlapping scanners with the same backtracking order as
  the Python patterns.  The scanners use an explicit fuel argument (one unit
  per character) so that they are structurally recursive and kernel-evaluable;
  fuel `l.length` is always sufficient since every step consumes at least one
  character.
* A Python dict chunk is a record of optional fields; `chunk["text"]` (which
  raises `KeyError` when the key is absent) is modelled in `Option`, so
  `weightedKeywordSearch` returns `none` exactly when the Python function
  raises, and `chunk.get(k, d)` is `Option.getD`.
* `list.sort(key=lambda x: x[0], reverse=True)` is a *stable* descending sort
  by score; it is modelled by `List.insertionSort` with the relation
  `scoreGe p q := q.1 ≤ p.1`, which is the stable descending insertion sort.
-/

/-- ASCII lowercase letter (regex class `[a-z]`). -/
def isLowerAlpha (c : Char) : Bool := 97 ≤ c.toNat && c.toNat ≤ 122

/-- ASCII uppercase letter (regex class `[A-Z]`). -/
def isUpperAlpha (c : Char) : Bool := 65 ≤ c.toNat && c.toNat ≤ 90

/-- ASCII digit (regex class `\d`, ASCII semantics). -/
def isDigitCh (c : Char) : Bool := 48 ≤ c.toNat && c.toNat ≤ 57

/-- Regex class `[a-z0-9]`. -/
def isLowerDigit (c : Char) : Bool := isLowerAlpha c || isDigitCh c

/-- Regex word character `\w` (ASCII semantics), used by the `\b` anchors. -/
def isWordChar (c : Char) : Bool :=
  isLowerAlpha c || isUpperAlpha c || isDigitCh c || c = '_'

/-- The characters a query token can consist of: the alphabet of the two
token-extraction regexes. -/
def tokChar (c : Char) : Bool := isLowerAlpha c || isDigitCh c || c = '-' || c = '_'

/-- `str.lower` on one character (ASCII semantics). -/
def lowerChar (c : Char) : Char :=
  if isUpperAlpha c then Char.ofNat (c.toNat + 32) else c

/-- `str.lower` (ASCII semantics). -/
def strLower (s : String) : String := String.mk (s.data.map lowerChar)

/-- Strip `p` from the front of `l` (the literal part of a regex match);
`some r` means `l = p ++ r`. -/
def dropPfx : List Char → List Char → Option (List Char)
  | [], l => some l
  | _ :: _, [] => none
  | p :: ps, c :: cs => if p = c then dropPfx ps cs else none

/-- Python's substring test `p in s` on character lists. -/
def isSubstrL (p : List Char) : List Char → Bool
  | [] => p.isEmpty
  | c :: cs => p.isPrefixOf (c :: cs) || isSubstrL p cs

/-- Python's substring test `p in s` on strings. -/
def isSubstr (p s : String) : Bool := isSubstrL p.data s.data

/-- The `STOPWORDS` set of `main.py`. -/
def STOPWORDS : List String :=
  ["a", "an", "the", "and", "or", "but", "is", "are", "was", "were", "be",
   "been", "being", "have", "has", "had", "do", "does", "did", "will", "would",
   "could", "should", "may", "might", "must", "shall", "can", "to", "of", "in",
   "for", "on", "with", "at", "by", "from", "as", "into", "through", "during",
   "before", "after", "above", "below", "between", "under", "again", "further",
   "then", "once", "here", "there", "when", "where", "why", "how", "all", "each",
   "few", "more", "most", "other", "some", "such", "no", "nor", "not", "only",
   "own", "same", "so", "than", "too", "very", "just", "about", "what", "which",
   "who", "whom", "this", "that", "these", "those", "am", "i", "me", "my", "we",
   "our", "you", "your", "he", "him", "his", "she", "her", "it", "its", "they",
   "them", "their", "if", "up", "out", "off", "over", "any"]

/-- Greedy match of `\d{1,2}`: two digits if possible, else one, else fail.
Returns the matched characters and the rest. -/
def matchDigits : List Char → Option (List Char × List Char)
  | [] => none
  | [d] => if isDigitCh d then some ([d], []) else none
  | d1 :: d2 :: r =>
    if isDigitCh d1 then
      if isDigitCh d2 then some ([d1, d2], r) else some ([d1], d2 :: r)
    else none

/-- Greedy match of `[\-_]?\d{1,2}` (separator taken if present and followed
by a digit). -/
def matchSepDigits (l : List Char) : Option (List Char × List Char) :=
  match l with
  | [] => none
  | c :: r =>
    if c = '-' || c = '_' then
      match matchDigits r with
      | some (ds, r2) => some (c :: ds, r2)
      | none => none
    else matchDigits l

/-- Try the pattern `[a-z]{1,2}[\-_]?\d{1,2}` at the head of `l`, with the
regex backtracking order: two letters first, then one. -/
def tryPlat (l : List Char) : Option (List Char × List Char) :=
  match l with
  | [] => none
  | a :: rest =>
    if isLowerAlpha a then
      match rest with
      | [] => none
      | b :: r2 =>
        if isLowerAlpha b then
          match matchSepDigits r2 with
          | some (m, r3) => some (a :: b :: m, r3)
          | none =>
            match matchSepDigits rest with
            | some (m, r3) => some (a :: m, r3)
            | none => none
        else
          match matchSepDigits rest with
          | some (m, r3) => some (a :: m, r3)
          | none => none
    else none

/-- `re.findall(r"[a-z]{1,2}[\-_]?\d{1,2}", ...)`: left-to-right
non-overlapping scan, fueled. -/
def findPlatTokensF : Nat → List Char → List String
  | 0, _ => []
  | _, [] => []
  | fuel + 1, c :: cs =>
    match tryPlat (c :: cs) with
    | some (m, r) => String.mk m :: findPlatTokensF fuel r
    | none => findPlatTokensF fuel cs

/-- The platform-shaped token extraction of `tokenize_query`. -/
def findPlatTokens (l : List Char) : List String := findPlatTokensF l.length l

/-- Take the maximal run of characters satisfying `p` from the front. -/
def takeRun (p : Char → Bool) : List Char → List Char × List Char
  | [] => ([], [])
  | c :: cs =>
    if p c then
      let r := takeRun p cs
      (c :: r.1, r.2)
    else ([], c :: cs)

/-- `re.findall(r"[a-z0-9]+", ...)`: the maximal alphanumeric runs, fueled. -/
def findRunsF : Nat → List Char → List String
  | 0, _ => []
  | _, [] => []
  | fuel + 1, c :: cs =>
    if isLowerDigit c then
      let r := takeRun isLowerDigit cs
      String.mk (c :: r.1) :: findRunsF fuel r.2
    else findRunsF fuel cs

/-- The generic-token extraction of `tokenize_query`. -/
def findRuns (l : List Char) : List String := findRunsF l.length l

/-- `re.findall(r"[a-z]+|\d+", ...)`: maximal letter runs and digit runs, the
decomposition of a platform token into its component parts, fueled. -/
def findPartsF : Nat → List Char → List String
  | 0, _ => []
  | _, [] => []
  | fuel + 1, c :: cs =>
    if isLowerAlpha c then
      let r := takeRun isLowerAlpha cs
      String.mk (c :: r.1) :: findPartsF fuel r.2
    else
      if isDigitCh c then
        let r := takeRun isDigitCh cs
        String.mk (c :: r.1) :: findPartsF fuel r.2
      else findPartsF fuel cs

/-- Letter-run / digit-run decomposition of a platform token. -/
def findParts (l : List Char) : List String := findPartsF l.length l

/-- Order-preserving deduplication (the `seen` loop of `tokenize_query`). -/
def dedupKeep (seen : List String) : List String → List String
  | [] => []
  | t :: ts => if seen.contains t then dedupKeep seen ts else t :: dedupKeep (t :: seen) ts

/-- `tokenize_query` of `main.py`. -/
def tokenizeQuery (query : String) : List String :=
  let ql := strLower query
  let platformTokens := findPlatTokens ql.data
  let platformParts := (platformTokens.map (fun pt => findParts pt.data)).flatten
  let regularTokens :=
    (findRuns ql.data).filter
      (fun t => !STOPWORDS.contains t && decide (1 < t.length) && !platformParts.contains t)
  dedupKeep [] (platformTokens ++ regularTokens)

/-- Word-character status of the head of the rest of the text (string end
counts as a non-word character), for the trailing `\b` anchor. -/
def nextIsWord : List Char → Bool
  | [] => false
  | c :: _ => isWordChar c

/-- Word-character status of the last character of the consumed text (string
start counts as a non-word character), for the leading `\b` anchor. -/
def lastIsWord (u : List Char) : Bool := isWordChar (u.getLastD ' ')

/-- Match `\b tok \b` at the current position: `prevW` is the word-character
status of the preceding character.  Returns the rest of the text after the
match.  (The scorer only ever uses non-empty tokens.) -/
def matchBdy (tok : List Char) (prevW : Bool) (l : List Char) : Option (List Char) :=
  match tok with
  | [] => none
  | t0 :: _ =>
    match dropPfx tok l with
    | none => none
    | some r =>
      if (prevW != isWordChar t0) && (isWordChar (tok.getLastD ' ') != nextIsWord r) then
        some r
      else none

/-- `len(re.findall(r"\b" + re.escape(tok) + r"\b", text))`: count of
non-overlapping word-boundary-delimited occurrences, fueled left-to-right
scan that jumps past each match. -/
def bmCountF (tok : List Char) : Nat → Bool → List Char → Nat
  | 0, _, _ => 0
  | _, _, [] => 0
  | fuel + 1, prevW, c :: cs =>
    match matchBdy tok prevW (c :: cs) with
    | some r => 1 + bmCountF tok fuel (isWordChar (tok.getLastD ' ')) r
    | none => bmCountF tok fuel (isWordChar c) cs

/-- Number of word-boundary matches of `tok` in `text`. -/
def bmCount (tok text : List Char) : Nat := bmCountF tok text.length false text

/-- The keyword-frequency part of the score: for each query token, the number
of word-boundary occurrences in the lowercased chunk text. -/
def kwScore (tokens : List String) (textLower : String) : Nat :=
  (tokens.map (fun t => bmCount t.data textLower.data)).sum

/-- The hardcoded list of well-known platform surface forms scanned by the
wrong-platform penalty branch. -/
def PLATFORM_SURFACE_FORMS : List String :=
  ["ah-1", "rc-12", "uh-1", "oh-58", "c-12", "ch-47", "uh-60"]

/-- The platform bonus/penalty of `weighted_keyword_search`: `+10` when the
chunk's platform tag (not `"UNKNOWN"`) occurs lowercased in the lowercased
query, else `-5` when some surface form occurs in the query but not in the
tag (applied once, the loop breaks at the first mismatch), else `0`. -/
def platformAdj (ql platformVal : String) : Int :=
  if platformVal != "UNKNOWN" && isSubstr (strLower platformVal) ql then 10
  else
    if platformVal != "UNKNOWN" &&
        PLATFORM_SURFACE_FORMS.any
          (fun pt => isSubstr pt ql && !isSubstr pt (strLower platformVal)) then
      -5
    else 0

/-- Python's `" ".join(l)`: empty for no parts, otherwise the parts joined by
single spaces. -/
def spaceJoin : List String → String
  | [] => ""
  | [w] => w
  | w :: ws => w ++ " " ++ spaceJoin ws

/-- The exact-phrase string: the first three query tokens joined by spaces. -/
def phraseStr (tokens : List String) : String :=
  spaceJoin (tokens.take 3)

/-- The exact-phrase bonus: `+5` when the query has at least two tokens and
the phrase occurs in the lowercased chunk text. -/
def phraseBonus (tokens : List String) (textLower : String) : Int :=
  if 2 ≤ tokens.length && isSubstr (phraseStr tokens) textLower then 5 else 0

/-- The per-chunk score of `weighted_keyword_search`, given the chunk's text
and its platform tag value. -/
def scoreText (ql : String) (tokens : List String) (text platformVal : String) : Int :=
  (kwScore tokens (strLower text) : Int)
    + platformAdj ql platformVal
    + phraseBonus tokens (strLower text)

/-- A knowledge-base chunk: a JSON object with optional fields. -/
structure Chunk where
  id : Option String := none
  text : Option String := none
  source : Option String := none
  page : Option Nat := none
  platform : Option String := none
deriving DecidableEq, Repr

/-- Score one chunk: `chunk["text"]` raises `KeyError` when absent (`none`);
`chunk.get("platform", "UNKNOWN")` defaults. -/
def scoreChunk? (ql : String) (tokens : List String) (c : Chunk) : Option Int :=
  c.text.map (fun t => scoreText ql tokens t (c.platform.getD "UNKNOWN"))

/-- Score every chunk of the corpus in order, propagating the `KeyError` of a
missing `text` field. -/
def scoreAll (ql : String) (tokens : List String) : List Chunk → Option (List (Int × Chunk))
  | [] => some []
  | c :: cs =>
    match scoreChunk? ql tokens c with
    | none => none
    | some s =>
      match scoreAll ql tokens cs with
      | none => none
      | some r => some ((s, c) :: r)

/-- The sort relation of `scored_chunks.sort(key=lambda x: x[0], reverse=True)`:
descending by score. -/
def scoreGe (p q : Int × Chunk) : Prop := q.1 ≤ p.1

instance : DecidableRel scoreGe := fun p q => Int.decLe q.1 p.1

instance : IsTotal (Int × Chunk) scoreGe := ⟨fun p q => (Int.le_total p.1 q.1).symm⟩

instance : IsTrans (Int × Chunk) scoreGe := ⟨fun _ _ _ h1 h2 => le_trans h2 h1⟩

/-- `weighted_keyword_search` of `main.py`.  Returns `none` exactly when the
Python function raises (a corpus chunk without a `text` field reached by the
scoring loop); otherwise `some` of the ranked chunk list. -/
def weightedKeywordSearch (query : String) (kb : List Chunk) (topK : Nat) :
    Option (List Chunk) :=
  let ql := strLower query
  let tokens := tokenizeQuery query
  if tokens.isEmpty then some []
  else
    match scoreAll ql tokens kb with
    | none => none
    | some scored =>
      some (((((scored.filter (fun p => 3 ≤ p.1)).insertionSort scoreGe)).take topK).map
        Prod.snd)

/-- The truncated text of one context section: `chunk.get("text", "")[:800]`. -/
def sectionText (c : Chunk) : String := String.mk ((c.text.getD "").data.take 800)

/-- The rendered page field: `chunk.get("page", "?")`. -/
def pageStr (c : Chunk) : String :=
  match c.page with
  | some p => toString p
  | none => "?"

/-- One context section (`i` is the 1-based index). -/
def sectionOf (i : Nat) (c : Chunk) : String :=
  "[Source " ++ toString i ++ ": " ++ c.source.getD "Unknown" ++ ", Page "
    ++ pageStr c ++ "]\n" ++ sectionText c

/-- `format_context` of `main.py`. -/
def formatContext (chunks : List Chunk) : String :=
  if chunks.isEmpty then "No relevant context found."
  else String.intercalate "\n\n" (chunks.enum.map (fun p => sectionOf (p.1 + 1) p.2))

/-! ## Substring machinery -/

theorem dropPfx_eq_some {p l r : List Char} : dropPfx p l = some r ↔ l = p ++ r := by
  induction p generalizing l with
  | nil => simp [dropPfx]
  | cons a ps ih =>
    cases l with
    | nil => simp [dropPfx]
    | cons c cs =>
      simp only [dropPfx]
      by_cases h : a = c
      · subst h
        simp [ih]
      · rw [if_neg h]
        simp [Ne.symm h]

theorem dropPfx_self_append (p r : List Char) : dropPfx p (p ++ r) = some r :=
  dropPfx_eq_some.mpr rfl

theorem isSubstrL_iff {p s : List Char} :
    isSubstrL p s = true ↔ ∃ u v, s = u ++ p ++ v := by
  induction s with
  | nil =>
    simp only [isSubstrL, List.isEmpty_iff]
    constructor
    · intro h
      exact ⟨[], [], by simp [h]⟩
    · rintro ⟨u, v, huv⟩
      rcases List.append_eq_nil.mp (List.append_eq_nil.mp huv.symm).1 with ⟨-, h2⟩
      exact h2
  | cons c cs ih =>
    simp only [isSubstrL, Bool.or_eq_true, ih]
    constructor
    · rintro (h | ⟨u, v, huv⟩)
      · rcases List.isPrefixOf_iff_prefix.mp h with ⟨v, hv⟩
        exact ⟨[], v, by simp [hv.symm]⟩
      · exact ⟨c :: u, v, by simp [huv]⟩
    · rintro ⟨u, v, huv⟩
      cases u with
      | nil =>
        left
        exact List.isPrefixOf_iff_prefix.mpr ⟨v, by simpa using huv.symm⟩
      | cons x xs =>
        right
        refine ⟨xs, v, ?_⟩
        simp only [List.cons_append] at huv
        injection huv with h1 h2

theorem isSubstrL_of_append {p s : List Char} (h : isSubstrL p s = true) (t : List Char) :
    isSubstrL p (s ++ t) = true := by
  rcases isSubstrL_iff.mp h with ⟨u, v, huv⟩
  exact isSubstrL_iff.mpr ⟨u, v ++ t, by simp [huv]⟩

theorem isSubstrL_trans {a b c : List Char} (hab : isSubstrL a b = true)
    (hbc : isSubstrL b c = true) : isSubstrL a c = true := by
  rcases isSubstrL_iff.mp hab with ⟨u, v, huv⟩
  rcases isSubstrL_iff.mp hbc with ⟨x, y, hxy⟩
  exact isSubstrL_iff.mpr ⟨x ++ u, v ++ y, by simp [hxy, huv]⟩

/-! ## Character classes and lowercasing -/

theorem lowerChar_eq_self {c : Char}
    (h : (isLowerAlpha c || isDigitCh c || c = '-' || c = '_' || c = ' ') = true) :
    lowerChar c = c := by
  have hu : isUpperAlpha c = false := by
    simp only [Bool.or_eq_true, decide_eq_true_eq] at h
    rcases h with ((((h1 | h2) | h3) | h4) | h5)
    · simp only [isLowerAlpha, Bool.and_eq_true, decide_eq_true_eq] at h1
      simp only [isUpperAlpha, Bool.and_eq_false_iff, decide_eq_false_iff_not]
      omega
    · simp only [isDigitCh, Bool.and_eq_true, decide_eq_true_eq] at h2
      simp only [isUpperAlpha, Bool.and_eq_false_iff, decide_eq_false_iff_not]
      omega
    · subst h3; decide
    · subst h4; decide
    · subst h5; decide
  simp [lowerChar, hu]

/-! ## Scanner characterizations -/

theorem matchDigits_some {l ds r : List Char} (h : matchDigits l = some (ds, r)) :
    l = ds ++ r ∧ ds ≠ [] ∧ ∀ c ∈ ds, isDigitCh c = true := by
  match l with
  | [] => simp [matchDigits] at h
  | [d] =>
    by_cases hd : isDigitCh d
    · simp [matchDigits, hd] at h
      obtain ⟨h1, h2⟩ := h
      subst h1; subst h2
      simp [hd]
    · simp [matchDigits, hd] at h
  | d1 :: d2 :: t =>
    by_cases h1 : isDigitCh d1
    · by_cases h2 : isDigitCh d2
      · simp [matchDigits, h1, h2] at h
        obtain ⟨ha, hb⟩ := h
        subst ha; subst hb
        simp_all
      · simp [matchDigits, h1, h2] at h
        obtain ⟨ha, hb⟩ := h
        subst ha; subst hb
        simp_all
    · simp [matchDigits, h1] at h

theorem matchSepDigits_some {l m r : List Char} (h : matchSepDigits l = some (m, r)) :
    l = m ++ r ∧ m ≠ [] ∧ ∀ c ∈ m, (isDigitCh c || c = '-' || c = '_') = true := by
  match l with
  | [] => simp [matchSepDigits] at h
  | c :: t =>
    by_cases hc : (c = '-' || c = '_') = true
    · rw [matchSepDigits, if_pos hc] at h
      cases hds : matchDigits t with
      | none => rw [hds] at h; simp at h
      | some dsr =>
        obtain ⟨ds, r2⟩ := dsr
        rw [hds] at h
        simp at h
        obtain ⟨hm, hr⟩ := h
        subst hm; subst hr
        obtain ⟨he, -, hd⟩ := matchDigits_some hds
        subst he
        refine ⟨rfl, by simp, ?_⟩
        intro x hx
        rcases List.mem_cons.mp hx with hx | hx
        · subst hx
          simp only [Bool.or_eq_true, decide_eq_true_eq] at hc ⊢
          tauto
        · simp [hd x hx]
    · rw [matchSepDigits, if_neg hc] at h
      obtain ⟨he, hne, hd⟩ := matchDigits_some h
      exact ⟨he, hne, fun x hx => by simp [hd x hx]⟩

theorem tryPlat_some {l m r : List Char} (h : tryPlat l = some (m, r)) :
    l = m ++ r ∧ 2 ≤ m.length ∧ ∀ c ∈ m, tokChar c = true := by
  match l with
  | [] => simp [tryPlat] at h
  | a :: rest =>
    by_cases ha : isLowerAlpha a
    · match rest with
      | [] => simp [tryPlat, ha] at h
      | b :: r2 =>
        by_cases hb : isLowerAlpha b
        · rw [tryPlat, if_pos ha, if_pos hb] at h
          cases hsd : matchSepDigits r2 with
          | some mr3 =>
            obtain ⟨m1, r3⟩ := mr3
            rw [hsd] at h
            simp at h
            obtain ⟨hm, hr⟩ := h
            subst hm; subst hr
            obtain ⟨he, hne, hd⟩ := matchSepDigits_some hsd
            subst he
            refine ⟨by simp, by simp, ?_⟩
            intro x hx
            rcases List.mem_cons.mp hx with hx | hx
            · subst hx; simp [tokChar, ha]
            rcases List.mem_cons.mp hx with hx | hx
            · subst hx; simp [tokChar, hb]
            · have := hd x hx
              simp only [tokChar, Bool.or_eq_true] at this ⊢
              tauto
          | none =>
            rw [hsd] at h
            cases hsd2 : matchSepDigits (b :: r2) with
            | none => rw [hsd2] at h; simp at h
            | some mr3 =>
              obtain ⟨m1, r3⟩ := mr3
              rw [hsd2] at h
              simp at h
              obtain ⟨hm, hr⟩ := h
              subst hm; subst hr
              obtain ⟨he, hne, hd⟩ := matchSepDigits_some hsd2
              refine ⟨by simp [he], ?_, ?_⟩
              · simp
                cases m1 with
                | nil => exact absurd rfl hne
                | cons _ _ => simp
              · intro x hx
                rcases List.mem_cons.mp hx with hx | hx
                · subst hx; simp [tokChar, ha]
                · have := hd x hx
                  simp only [tokChar, Bool.or_eq_true] at this ⊢
                  tauto
        · rw [tryPlat, if_pos ha, if_neg hb] at h
          cases hsd2 : matchSepDigits (b :: r2) with
          | none => rw [hsd2] at h; simp at h
          | some mr3 =>
            obtain ⟨m1, r3⟩ := mr3
            rw [hsd2] at h
            simp at h
            obtain ⟨hm, hr⟩ := h
            subst hm; subst hr
            obtain ⟨he, hne, hd⟩ := matchSepDigits_some hsd2
            refine ⟨by simp [he], ?_, ?_⟩
            · simp
              cases m1 with
              | nil => exact absurd rfl hne
              | cons _ _ => simp
            · intro x hx
              rcases List.mem_cons.mp hx with hx | hx
              · subst hx; simp [tokChar, ha]
              · have := hd x hx
                simp only [tokChar, Bool.or_eq_true] at this ⊢
                tauto
    · simp [tryPlat, ha] at h

theorem takeRun_eq (p : Char → Bool) (l : List Char) :
    l = (takeRun p l).1 ++ (takeRun p l).2 ∧ (∀ c ∈ (takeRun p l).1, p c = true) ∧
    (takeRun p l).2.length ≤ l.length := by
  induction l with
  | nil => simp [takeRun]
  | cons c cs ih =>
    by_cases hc : p c
    · simp only [takeRun, if_pos hc]
      obtain ⟨h1, h2, h3⟩ := ih
      refine ⟨by simpa using h1, ?_, by simpa using Nat.le_succ_of_le h3⟩
      intro x hx
      rcases List.mem_cons.mp hx with hx | hx
      · subst hx; exact hc
      · exact h2 x hx
    · simp [takeRun, if_neg hc]

/-! ## Fuel irrelevance: any fuel of at least the text length gives the same
scan result, so the `l.length` fuel of the wrappers is canonical. -/

theorem findPlatTokensF_fuel :
    ∀ (f g : Nat) (l : List Char), l.length ≤ f → l.length ≤ g →
      findPlatTokensF f l = findPlatTokensF g l := by
  intro f
  induction f with
  | zero =>
    intro g l hf _
    have hl : l = [] := List.length_eq_zero.mp (Nat.le_zero.mp hf)
    subst hl
    cases g <;> simp [findPlatTokensF]
  | succ f ih =>
    intro g l hf hg
    cases l with
    | nil => cases g <;> simp [findPlatTokensF]
    | cons c cs =>
      cases g with
      | zero => simp at hg
      | succ g =>
        simp only [findPlatTokensF]
        cases htp : tryPlat (c :: cs) with
        | none =>
          simp only [List.length_cons] at hf hg
          exact ih g cs (by omega) (by omega)
        | some mr =>
          obtain ⟨m, r⟩ := mr
          obtain ⟨he, hm2, -⟩ := tryPlat_some htp
          have hr : r.length + 2 ≤ cs.length + 1 := by
            have := congrArg List.length he
            simp at this
            omega
          simp only [List.length_cons] at hf hg
          dsimp only
          rw [ih g r (by omega) (by omega)]

theorem findRunsF_fuel :
    ∀ (f g : Nat) (l : List Char), l.length ≤ f → l.length ≤ g →
      findRunsF f l = findRunsF g l := by
  intro f
  induction f with
  | zero =>
    intro g l hf _
    have hl : l = [] := List.length_eq_zero.mp (Nat.le_zero.mp hf)
    subst hl
    cases g <;> simp [findRunsF]
  | succ f ih =>
    intro g l hf hg
    cases l with
    | nil => cases g <;> simp [findRunsF]
    | cons c cs =>
      cases g with
      | zero => simp at hg
      | succ g =>
        simp only [findRunsF, List.length_cons] at hf hg ⊢
        by_cases hc : isLowerDigit c
        · simp only [if_pos hc]
          have hr := (takeRun_eq isLowerDigit cs).2.2
          rw [ih g (takeRun isLowerDigit cs).2 (by omega) (by omega)]
        · simp only [if_neg hc]
          exact ih g cs (by omega) (by omega)

theorem findPartsF_fuel :
    ∀ (f g : Nat) (l : List Char), l.length ≤ f → l.length ≤ g →
      findPartsF f l = findPartsF g l := by
  intro f
  induction f with
  | zero =>
    intro g l hf _
    have hl : l = [] := List.length_eq_zero.mp (Nat.le_zero.mp hf)
    subst hl
    cases g <;> simp [findPartsF]
  | succ f ih =>
    intro g l hf hg
    cases l with
    | nil => cases g <;> simp [findPartsF]
    | cons c cs =>
      cases g with
      | zero => simp at hg
      | succ g =>
        simp only [findPartsF, List.length_cons] at hf hg ⊢
        by_cases hc : isLowerAlpha c
        · simp only [if_pos hc]
          have hr := (takeRun_eq isLowerAlpha cs).2.2
          rw [ih g (takeRun isLowerAlpha cs).2 (by omega) (by omega)]
        · simp only [if_neg hc]
          by_cases hd : isDigitCh c
          · simp only [if_pos hd]
            have hr := (takeRun_eq isDigitCh cs).2.2
            rw [ih g (takeRun isDigitCh cs).2 (by omega) (by omega)]
          · simp only [if_neg hd]
            exact ih g cs (by omega) (by omega)

theorem matchBdy_some {tok l r : List Char} (h : matchBdy tok prevW l = some r) :
    l = tok ++ r ∧ tok ≠ [] ∧ (prevW != isWordChar (tok.headD ' ')) = true ∧
    (isWordChar (tok.getLastD ' ') != nextIsWord r) = true := by
  match tok with
  | [] => simp [matchBdy] at h
  | t0 :: ts =>
    simp only [matchBdy] at h
    cases hd : dropPfx (t0 :: ts) l with
    | none => rw [hd] at h; simp at h
    | some r2 =>
      rw [hd] at h
      dsimp only at h
      by_cases hb : ((prevW != isWordChar t0) &&
          (isWordChar ((t0 :: ts).getLastD ' ') != nextIsWord r2)) = true
      · rw [if_pos hb] at h
        injection h with h1
        subst h1
        simp only [Bool.and_eq_true] at hb
        exact ⟨dropPfx_eq_some.mp hd, by simp, by simpa using hb.1, hb.2⟩
      · rw [if_neg hb] at h
        simp at h

theorem bmCountF_fuel :
    ∀ (f g : Nat) (w : Bool) (tok l : List Char), l.length ≤ f → l.length ≤ g →
      bmCountF tok f w l = bmCountF tok g w l := by
  intro f
  induction f with
  | zero =>
    intro g w tok l hf _
    have hl : l = [] := List.length_eq_zero.mp (Nat.le_zero.mp hf)
    subst hl
    cases g <;> simp [bmCountF]
  | succ f ih =>
    intro g w tok l hf hg
    cases l with
    | nil => cases g <;> simp [bmCountF]
    | cons c cs =>
      cases g with
      | zero => simp at hg
      | succ g =>
        simp only [bmCountF, List.length_cons] at hf hg ⊢
        cases hm : matchBdy tok w (c :: cs) with
        | none => exact ih g (isWordChar c) tok cs (by omega) (by omega)
        | some r =>
          obtain ⟨he, hne, -, -⟩ := matchBdy_some hm
          have : tok.length + r.length = cs.length + 1 := by
            have := congrArg List.length he
            simp at this
            omega
          have htk : 1 ≤ tok.length := by
            cases tok with
            | nil => exact absurd rfl hne
            | cons _ _ => simp
          dsimp only
          rw [ih g (isWordChar (tok.getLastD ' ')) tok r (by omega) (by omega)]

/-! ## Word-boundary counting: key lemmas -/

theorem nextIsWord_append_space (rem r : List Char) :
    nextIsWord (rem ++ ' ' :: r) = nextIsWord rem := by
  cases rem with
  | nil => simp [nextIsWord]; decide
  | cons c cs => simp [nextIsWord]

theorem matchBdy_extend {tok l rem : List Char} {w : Bool} (r : List Char)
    (h : matchBdy tok w l = some rem) :
    matchBdy tok w (l ++ ' ' :: r) = some (rem ++ ' ' :: r) := by
  obtain ⟨he, hne, hstart, hend⟩ := matchBdy_some h
  match tok, hne with
  | t0 :: ts, _ =>
    have hdp : dropPfx (t0 :: ts) (l ++ ' ' :: r) = some (rem ++ ' ' :: r) := by
      rw [he, List.append_assoc]
      exact dropPfx_self_append _ _
    simp only [matchBdy, hdp]
    rw [nextIsWord_append_space]
    simp only [List.headD] at hstart
    rw [hstart, hend]
    simp

theorem bmCountF_zero_of_long {tok : List Char} :
    ∀ (f : Nat) (w : Bool) (l : List Char), l.length < tok.length →
      bmCountF tok f w l = 0 := by
  intro f
  induction f with
  | zero => intro w l _; simp [bmCountF]
  | succ f ih =>
    intro w l hl
    cases l with
    | nil => simp [bmCountF]
    | cons c cs =>
      simp only [bmCountF]
      cases hm : matchBdy tok w (c :: cs) with
      | some r =>
        obtain ⟨he, -, -, -⟩ := matchBdy_some hm
        have hc := congrArg List.length he
        simp only [List.length_append, List.length_cons] at hc
        simp only [List.length_cons] at hl
        exact absurd hc (by omega)
      | none =>
        simp only [List.length_cons] at hl
        exact ih (isWordChar c) cs (by omega)

theorem matchBdy_none_extend {tok l rem2 : List Char} {w : Bool} {r : List Char}
    (hnone : matchBdy tok w l = none)
    (hsome : matchBdy tok w (l ++ ' ' :: r) = some rem2) :
    l.length < tok.length := by
  by_contra hlen
  push_neg at hlen
  obtain ⟨he, hne, hstart, hend⟩ := matchBdy_some hsome
  have htake : l.take tok.length = tok := by
    have h1 : (l ++ ' ' :: r).take tok.length = l.take tok.length := by
      rw [List.take_append_eq_append_take]
      have : tok.length - l.length = 0 := by omega
      rw [this]
      simp
    have h2 : (tok ++ rem2).take tok.length = tok := List.take_left tok rem2
    rw [he] at h1
    rw [h2] at h1
    exact h1.symm
  have hl : l = tok ++ l.drop tok.length := by
    conv_lhs => rw [← List.take_append_drop tok.length l, htake]
  have hrem : rem2 = l.drop tok.length ++ ' ' :: r := by
    have : tok ++ rem2 = tok ++ (l.drop tok.length ++ ' ' :: r) := by
      rw [← List.append_assoc, ← hl, ← he]
    exact List.append_cancel_left this
  match tok, hne with
  | t0 :: ts, _ =>
    have hdp : dropPfx (t0 :: ts) l = some (l.drop (t0 :: ts).length) :=
      dropPfx_eq_some.mpr hl
    have hendl : (isWordChar ((t0 :: ts).getLastD ' ')
        != nextIsWord (l.drop (t0 :: ts).length)) = true := by
      rw [hrem, nextIsWord_append_space] at hend
      exact hend
    have : matchBdy (t0 :: ts) w l = some (l.drop (t0 :: ts).length) := by
      simp only [matchBdy, hdp]
      simp only [List.headD] at hstart
      rw [hstart, hendl]
      simp
    rw [this] at hnone
    simp at hnone

theorem bmCountF_append_space_mono {tok : List Char} (r : List Char) :
    ∀ (n : Nat) (t : List Char), t.length ≤ n → ∀ (w : Bool),
      bmCountF tok t.length w t ≤
        bmCountF tok (t ++ ' ' :: r).length w (t ++ ' ' :: r) := by
  intro n
  induction n with
  | zero =>
    intro t ht w
    have : t = [] := List.length_eq_zero.mp (Nat.le_zero.mp ht)
    subst this
    simp [bmCountF]
  | succ n ih =>
    intro t ht w
    cases t with
    | nil => simp [bmCountF]
    | cons c cs =>
      have hlen : (c :: cs ++ ' ' :: r).length = cs.length + r.length + 2 := by
        simp only [List.cons_append, List.length_cons, List.length_append]
        omega
      cases hm : matchBdy tok w (c :: cs) with
      | some rem =>
        have hext : matchBdy tok w (c :: cs ++ ' ' :: r) = some (rem ++ ' ' :: r) := by
          have := matchBdy_extend r hm
          simpa using this
        obtain ⟨he, hne, -, -⟩ := matchBdy_some hm
        have htok1 : 1 ≤ tok.length := by
          cases tok with
          | nil => exact absurd rfl hne
          | cons _ _ => simp
        have hrem : tok.length + rem.length = cs.length + 1 := by
          have := congrArg List.length he
          simp at this
          omega
        have hW := isWordChar (tok.getLastD ' ')
        calc bmCountF tok (c :: cs).length w (c :: cs)
            = 1 + bmCountF tok cs.length (isWordChar (tok.getLastD ' ')) rem := by
              simp only [List.length_cons, bmCountF, hm]
          _ = 1 + bmCountF tok rem.length (isWordChar (tok.getLastD ' ')) rem := by
              rw [bmCountF_fuel cs.length rem.length _ tok rem (by omega) (by omega)]
          _ ≤ 1 + bmCountF tok (rem ++ ' ' :: r).length (isWordChar (tok.getLastD ' '))
                (rem ++ ' ' :: r) := by
              have := ih rem (by simp only [List.length_cons] at ht; omega)
                (isWordChar (tok.getLastD ' '))
              omega
          _ = bmCountF tok (c :: cs ++ ' ' :: r).length w (c :: cs ++ ' ' :: r) := by
              have h2 : (c :: (cs ++ ' ' :: r)).length = (rem ++ ' ' :: r).length + 1
                  + (tok.length - 1) := by
                simp
                omega
              simp only [List.cons_append] at hext ⊢
              rw [show (c :: (cs ++ ' ' :: r)).length
                  = ((cs ++ ' ' :: r)).length + 1 from by simp]
              simp only [bmCountF, hext]
              rw [bmCountF_fuel ((cs ++ ' ' :: r)).length (rem ++ ' ' :: r).length _ tok
                (rem ++ ' ' :: r) (by simp; omega) (by omega)]
      | none =>
        cases hm2 : matchBdy tok w (c :: cs ++ ' ' :: r) with
        | none =>
          have h1 : bmCountF tok (c :: cs).length w (c :: cs)
              = bmCountF tok cs.length (isWordChar c) cs := by
            simp only [List.length_cons, bmCountF, hm]
          have h2 : bmCountF tok (c :: cs ++ ' ' :: r).length w (c :: cs ++ ' ' :: r)
              = bmCountF tok (cs ++ ' ' :: r).length (isWordChar c) (cs ++ ' ' :: r) := by
            simp only [List.cons_append] at hm2 ⊢
            rw [show (c :: (cs ++ ' ' :: r)).length = (cs ++ ' ' :: r).length + 1 from by simp]
            simp only [bmCountF, hm2]
          rw [h1, h2]
          exact ih cs (by simp only [List.length_cons] at ht; omega) (isWordChar c)
        | some rem2 =>
          have hshort : (c :: cs).length < tok.length := matchBdy_none_extend hm hm2
          have h1 : bmCountF tok (c :: cs).length w (c :: cs) = 0 :=
            bmCountF_zero_of_long _ w (c :: cs) hshort
          rw [h1]
          exact Nat.zero_le _

/-- Appending a space-separated suffix never decreases the word-boundary
occurrence count. -/
theorem bmCount_append_space_mono (tok t r : List Char) :
    bmCount tok t ≤ bmCount tok (t ++ ' ' :: r) :=
  bmCountF_append_space_mono r t.length t le_rfl false

/-- A positive word-boundary count exhibits an occurrence of the token that is
flanked by non-word characters (or the ends of the text): a substring
occurrence strictly inside a longer word never contributes. -/
theorem bmCountF_pos_occ {tok : List Char} :
    ∀ (f : Nat) (w : Bool) (l : List Char), 0 < bmCountF tok f w l →
      ∃ u v, l = u ++ tok ++ v ∧
        ((u = [] ∧ (w != isWordChar (tok.headD ' ')) = true) ∨
         (u ≠ [] ∧ (lastIsWord u != isWordChar (tok.headD ' ')) = true)) ∧
        (isWordChar (tok.getLastD ' ') != nextIsWord v) = true := by
  intro f
  induction f with
  | zero => intro w l h; simp [bmCountF] at h
  | succ f ih =>
    intro w l h
    cases l with
    | nil => simp [bmCountF] at h
    | cons c cs =>
      simp only [bmCountF] at h
      cases hm : matchBdy tok w (c :: cs) with
      | some rem =>
        obtain ⟨he, -, hstart, hend⟩ := matchBdy_some hm
        exact ⟨[], rem, by simpa using he, Or.inl ⟨rfl, hstart⟩, hend⟩
      | none =>
        rw [hm] at h
        obtain ⟨u, v, hev, hst, hen⟩ := ih (isWordChar c) cs h
        refine ⟨c :: u, v, by simp [hev], ?_, hen⟩
        right
        refine ⟨by simp, ?_⟩
        rcases hst with ⟨hu, hw⟩ | ⟨hu, hw⟩
        · subst hu
          simpa [lastIsWord] using hw
        · have : lastIsWord (c :: u) = lastIsWord u := by
            cases u with
            | nil => exact absurd rfl hu
            | cons x xs => simp [lastIsWord, List.getLastD_cons]
          rw [this]
          exact hw

/-! ## Shape of the extracted tokens -/

theorem mem_findPlatTokensF {f : Nat} {l : List Char} {t : String}
    (h : t ∈ findPlatTokensF f l) :
    2 ≤ t.data.length ∧ ∀ c ∈ t.data, tokChar c = true := by
  induction f generalizing l with
  | zero => simp [findPlatTokensF] at h
  | succ f ih =>
    cases l with
    | nil => simp [findPlatTokensF] at h
    | cons c cs =>
      simp only [findPlatTokensF] at h
      cases htp : tryPlat (c :: cs) with
      | none =>
        rw [htp] at h
        exact ih h
      | some mr =>
        obtain ⟨m, r⟩ := mr
        rw [htp] at h
        dsimp only at h
        rcases List.mem_cons.mp h with h | h
        · subst h
          obtain ⟨-, hm2, hch⟩ := tryPlat_some htp
          exact ⟨hm2, hch⟩
        · exact ih h

theorem mem_findRunsF {f : Nat} {l : List Char} {t : String}
    (h : t ∈ findRunsF f l) :
    t.data ≠ [] ∧ ∀ c ∈ t.data, isLowerDigit c = true := by
  induction f generalizing l with
  | zero => simp [findRunsF] at h
  | succ f ih =>
    cases l with
    | nil => simp [findRunsF] at h
    | cons c cs =>
      simp only [findRunsF] at h
      by_cases hc : isLowerDigit c
      · rw [if_pos hc] at h
        rcases List.mem_cons.mp h with h | h
        · subst h
          refine ⟨by simp, ?_⟩
          intro x hx
          rcases List.mem_cons.mp hx with hx | hx
          · subst hx; exact hc
          · exact (takeRun_eq isLowerDigit cs).2.1 x hx
        · exact ih h
      · rw [if_neg hc] at h
        exact ih h

theorem mem_dedupKeep {seen l : List String} {t : String} (h : t ∈ dedupKeep seen l) :
    t ∈ l := by
  induction l generalizing seen with
  | nil => simp [dedupKeep] at h
  | cons x xs ih =>
    simp only [dedupKeep] at h
    by_cases hx : seen.contains x
    · rw [if_pos hx] at h
      exact List.mem_cons_of_mem x (ih h)
    · rw [if_neg hx] at h
      rcases List.mem_cons.mp h with h | h
      · exact h ▸ List.mem_cons_self x xs
      · exact List.mem_cons_of_mem x (ih h)

theorem tokenizeQuery_mem {q : String} {t : String} (h : t ∈ tokenizeQuery q) :
    2 ≤ t.data.length ∧ ∀ c ∈ t.data, tokChar c = true := by
  have h1 := mem_dedupKeep h
  rcases List.mem_append.mp h1 with h2 | h2
  · exact mem_findPlatTokensF h2
  · have h3 := List.mem_filter.mp h2
    obtain ⟨h4, h5⟩ := h3
    obtain ⟨-, hch⟩ := mem_findRunsF h4
    simp only [Bool.and_eq_true, decide_eq_true_eq] at h5
    refine ⟨?_, ?_⟩
    · have : 1 < t.length := h5.1.2
      exact this
    · intro c hc
      have := hch c hc
      simp only [isLowerDigit, tokChar, Bool.or_eq_true] at this ⊢
      tauto

theorem listMap_eq_self {α : Type} {f : α → α} {l : List α} (h : ∀ c ∈ l, f c = c) :
    l.map f = l := by
  induction l with
  | nil => rfl
  | cons c cs ih =>
    simp only [List.map_cons, h c (List.mem_cons_self c cs),
      ih (fun x hx => h x (List.mem_cons_of_mem c hx))]

theorem tokenizeQuery_lower {q t : String} (h : t ∈ tokenizeQuery q) :
    strLower t = t := by
  obtain ⟨-, hch⟩ := tokenizeQuery_mem h
  have : t.data.map lowerChar = t.data :=
    listMap_eq_self (fun c hc => lowerChar_eq_self (by
      have := hch c hc
      simp only [tokChar, Bool.or_eq_true] at this
      simp only [Bool.or_eq_true]
      tauto))
  cases t with
  | mk d => simpa [strLower] using congrArg String.mk this

theorem tokenizeQuery_ne_nil {q t : String} (h : t ∈ tokenizeQuery q) :
    t.data ≠ [] := by
  obtain ⟨h2, -⟩ := tokenizeQuery_mem h
  intro hn
  rw [hn] at h2
  simp at h2

/-! ## Degenerate queries: no digits means no platform tokens, no
alphanumerics means no generic tokens, and a space-joined stopword query
splits into exactly its words. -/

theorem matchDigits_none {l : List Char} (h : ∀ c ∈ l, isDigitCh c = false) :
    matchDigits l = none := by
  match l with
  | [] => rfl
  | [d] => simp [matchDigits, h d (by simp)]
  | d1 :: d2 :: t => simp [matchDigits, h d1 (by simp)]

theorem matchSepDigits_none {l : List Char} (h : ∀ c ∈ l, isDigitCh c = false) :
    matchSepDigits l = none := by
  match l with
  | [] => rfl
  | c :: t =>
    simp only [matchSepDigits]
    by_cases hc : (c = '-' || c = '_') = true
    · rw [if_pos hc, matchDigits_none (fun x hx => h x (List.mem_cons_of_mem c hx))]
    · rw [if_neg hc, matchDigits_none h]

theorem tryPlat_none {l : List Char} (h : ∀ c ∈ l, isDigitCh c = false) :
    tryPlat l = none := by
  match l with
  | [] => rfl
  | a :: rest =>
    simp only [tryPlat]
    by_cases ha : isLowerAlpha a
    · rw [if_pos ha]
      match rest with
      | [] => rfl
      | b :: r2 =>
        have hr2 : ∀ c ∈ r2, isDigitCh c = false :=
          fun x hx => h x (by simp [List.mem_cons_of_mem, hx])
        have hrest : ∀ c ∈ b :: r2, isDigitCh c = false :=
          fun x hx => h x (List.mem_cons_of_mem a hx)
        dsimp only
        by_cases hb : isLowerAlpha b
        · rw [if_pos hb, matchSepDigits_none hr2, matchSepDigits_none hrest]
        · rw [if_neg hb, matchSepDigits_none hrest]
    · rw [if_neg ha]

theorem findPlatTokensF_nil {l : List Char} (h : ∀ c ∈ l, isDigitCh c = false) :
    ∀ f, findPlatTokensF f l = [] := by
  intro f
  induction f generalizing l with
  | zero => cases l <;> rfl
  | succ f ih =>
    cases l with
    | nil => rfl
    | cons c cs =>
      simp only [findPlatTokensF, tryPlat_none h]
      exact ih (fun x hx => h x (List.mem_cons_of_mem c hx))

theorem findRunsF_nil {l : List Char} (h : ∀ c ∈ l, isLowerDigit c = false) :
    ∀ f, findRunsF f l = [] := by
  intro f
  induction f generalizing l with
  | zero => cases l <;> rfl
  | succ f ih =>
    cases l with
    | nil => rfl
    | cons c cs =>
      simp only [findRunsF, if_neg (by simp [h c (by simp)] : ¬isLowerDigit c = true)]
      exact ih (fun x hx => h x (List.mem_cons_of_mem c hx))

theorem takeRun_cons (p : Char → Bool) (c : Char) (cs : List Char) :
    takeRun p (c :: cs) =
      if p c = true then (c :: (takeRun p cs).1, (takeRun p cs).2)
      else ([], c :: cs) := rfl

theorem findRunsF_nil_list : ∀ f, findRunsF f [] = [] := by
  intro f
  cases f <;> rfl

theorem findRunsF_succ (f : Nat) (c : Char) (cs : List Char) :
    findRunsF (f + 1) (c :: cs) =
      if isLowerDigit c = true then
        String.mk (c :: (takeRun isLowerDigit cs).1) :: findRunsF f (takeRun isLowerDigit cs).2
      else findRunsF f cs := rfl

theorem takeRun_of_run {p : Char → Bool} {w : List Char} {c' : Char} {rest : List Char}
    (hw : ∀ c ∈ w, p c = true) (hc : p c' = false) :
    takeRun p (w ++ c' :: rest) = (w, c' :: rest) := by
  induction w with
  | nil =>
    show takeRun p (c' :: rest) = ([], c' :: rest)
    rw [takeRun_cons, if_neg (by simp [hc])]
  | cons x xs ih =>
    show takeRun p (x :: (xs ++ c' :: rest)) = (x :: xs, c' :: rest)
    rw [takeRun_cons, if_pos (hw x (by simp)),
      ih (fun y hy => hw y (List.mem_cons_of_mem x hy))]

theorem takeRun_of_all {p : Char → Bool} {w : List Char} (hw : ∀ c ∈ w, p c = true) :
    takeRun p w = (w, []) := by
  induction w with
  | nil => rfl
  | cons x xs ih =>
    rw [takeRun_cons, if_pos (hw x (by simp)),
      ih (fun y hy => hw y (List.mem_cons_of_mem x hy))]

theorem findRuns_word {w : List Char} (hne : w ≠ [])
    (hw : ∀ c ∈ w, isLowerDigit c = true) :
    findRuns w = [String.mk w] := by
  match w, hne with
  | c :: w', _ =>
    show findRunsF (w'.length + 1) (c :: w') = [String.mk (c :: w')]
    rw [findRunsF_succ, if_pos (hw c (by simp)),
      takeRun_of_all (fun y hy => hw y (List.mem_cons_of_mem c hy))]
    rw [show ((w', ([] : List Char)).2) = ([] : List Char) from rfl, findRunsF_nil_list]

theorem findRuns_word_space {w rest : List Char} (hne : w ≠ [])
    (hw : ∀ c ∈ w, isLowerDigit c = true) :
    findRuns (w ++ ' ' :: rest) = String.mk w :: findRuns rest := by
  match w, hne with
  | c :: w', _ =>
    have hsp : isLowerDigit ' ' = false := by decide
    show findRunsF ((w' ++ ' ' :: rest).length + 1) (c :: (w' ++ ' ' :: rest))
      = String.mk (c :: w') :: findRuns rest
    rw [findRunsF_succ, if_pos (hw c (by simp)),
      takeRun_of_run (fun y hy => hw y (List.mem_cons_of_mem c hy)) hsp]
    rw [show ((w', ' ' :: rest).1) = w' from rfl, show ((w', ' ' :: rest).2) = ' ' :: rest from rfl]
    have h1 : findRunsF (w' ++ ' ' :: rest).length (' ' :: rest)
        = findRunsF (rest.length + 1) (' ' :: rest) := by
      apply findRunsF_fuel <;> simp
    rw [h1, findRunsF_succ, if_neg (by simp [hsp])]
    rfl

theorem data_spaceJoin_cons (w : String) (x : String) (xs : List String) :
    (spaceJoin (w :: x :: xs)).data = w.data ++ ' ' :: (spaceJoin (x :: xs)).data := by
  show (w ++ " " ++ spaceJoin (x :: xs)).data = _
  simp [String.data_append]

theorem findRuns_spaceJoin {ws : List String} (hne : ws ≠ [])
    (hws : ∀ w ∈ ws, w.data ≠ [] ∧ ∀ c ∈ w.data, isLowerDigit c = true) :
    findRuns (spaceJoin ws).data = ws := by
  induction ws with
  | nil => exact absurd rfl hne
  | cons w ws ih =>
    cases ws with
    | nil =>
      obtain ⟨h1, h2⟩ := hws w (by simp)
      show findRuns w.data = [w]
      rw [findRuns_word h1 h2]
    | cons x xs =>
      obtain ⟨h1, h2⟩ := hws w (by simp)
      rw [data_spaceJoin_cons, findRuns_word_space h1 h2,
        ih (by simp) (fun y hy => hws y (List.mem_cons_of_mem w hy))]

theorem mem_data_spaceJoin {ws : List String} {c : Char}
    (hc : c ∈ (spaceJoin ws).data) : c = ' ' ∨ ∃ w ∈ ws, c ∈ w.data := by
  induction ws with
  | nil => simp [spaceJoin] at hc
  | cons w ws ih =>
    cases ws with
    | nil =>
      right
      exact ⟨w, by simp, hc⟩
    | cons x xs =>
      rw [data_spaceJoin_cons] at hc
      rcases List.mem_append.mp hc with hc | hc
      · right
        exact ⟨w, by simp, hc⟩
      · rcases List.mem_cons.mp hc with hc | hc
        · exact Or.inl hc
        · rcases ih hc with hc | ⟨y, hy, hcy⟩
          · exact Or.inl hc
          · exact Or.inr ⟨y, List.mem_cons_of_mem w hy, hcy⟩

/-! ## Unfolding equations for the top-level functions -/

theorem tokenizeQuery_eq (q : String) :
    tokenizeQuery q =
      dedupKeep [] (findPlatTokens (strLower q).data ++
        (findRuns (strLower q).data).filter
          (fun t => !STOPWORDS.contains t && decide (1 < t.length) &&
            !((findPlatTokens (strLower q).data).map
                (fun pt => findParts pt.data)).flatten.contains t)) := rfl

theorem weightedKeywordSearch_eq (query : String) (kb : List Chunk) (topK : Nat) :
    weightedKeywordSearch query kb topK =
      if (tokenizeQuery query).isEmpty then some []
      else
        match scoreAll (strLower query) (tokenizeQuery query) kb with
        | none => none
        | some scored =>
          some (((((scored.filter (fun p => 3 ≤ p.1)).insertionSort scoreGe)).take
            topK).map Prod.snd) := rfl

theorem scoreText_eq (ql : String) (tokens : List String) (text platformVal : String) :
    scoreText ql tokens text platformVal =
      (kwScore tokens (strLower text) : Int) + platformAdj ql platformVal
        + phraseBonus tokens (strLower text) := rfl

/-! ## Tokenization of degenerate queries -/

theorem strLower_eq_self {q : String} (h : ∀ c ∈ q.data, isUpperAlpha c = false) :
    strLower q = q := by
  cases q with
  | mk d =>
    show String.mk (d.map lowerChar) = String.mk d
    rw [listMap_eq_self (fun c hc => by simp [lowerChar, h c hc])]

theorem tokenizeQuery_nil_of_nonalnum {q : String}
    (h : ∀ c ∈ (strLower q).data, isLowerDigit c = false) :
    tokenizeQuery q = [] := by
  rw [tokenizeQuery_eq]
  have hdig : ∀ c ∈ (strLower q).data, isDigitCh c = false := by
    intro c hc
    have := h c hc
    simp only [isLowerDigit, Bool.or_eq_false_iff] at this
    exact this.2
  rw [show findPlatTokens (strLower q).data
      = findPlatTokensF (strLower q).data.length (strLower q).data from rfl,
    findPlatTokensF_nil hdig,
    show findRuns (strLower q).data
      = findRunsF (strLower q).data.length (strLower q).data from rfl,
    findRunsF_nil h]
  rfl

theorem stopwords_shape :
    ∀ w ∈ STOPWORDS, w.data ≠ [] ∧ ∀ c ∈ w.data, isLowerAlpha c = true := by decide

theorem tokenizeQuery_nil_of_stopwords {ws : List String} (hne : ws ≠ [])
    (hws : ∀ w ∈ ws, w ∈ STOPWORDS) :
    tokenizeQuery (spaceJoin ws) = [] := by
  have hchars : ∀ c ∈ (spaceJoin ws).data,
      c = ' ' ∨ isLowerAlpha c = true := by
    intro c hc
    rcases mem_data_spaceJoin hc with hc | ⟨w, hw, hcw⟩
    · exact Or.inl hc
    · exact Or.inr ((stopwords_shape w (hws w hw)).2 c hcw)
  have hlow : strLower (spaceJoin ws) = spaceJoin ws := by
    apply strLower_eq_self
    intro c hc
    rcases hchars c hc with hc1 | hc1
    · subst hc1; decide
    · simp only [isLowerAlpha, Bool.and_eq_true, decide_eq_true_eq] at hc1
      simp only [isUpperAlpha, Bool.and_eq_false_iff, decide_eq_false_iff_not]
      omega
  have hdig : ∀ c ∈ (spaceJoin ws).data, isDigitCh c = false := by
    intro c hc
    rcases hchars c hc with hc1 | hc1
    · subst hc1; decide
    · simp only [isLowerAlpha, Bool.and_eq_true, decide_eq_true_eq] at hc1
      simp only [isDigitCh, Bool.and_eq_false_iff, decide_eq_false_iff_not]
      omega
  have hplat : findPlatTokens (spaceJoin ws).data = [] := findPlatTokensF_nil hdig _
  have hruns : findRuns (spaceJoin ws).data = ws :=
    findRuns_spaceJoin hne (fun w hw =>
      ⟨(stopwords_shape w (hws w hw)).1,
       fun c hc => by
        simp only [isLowerDigit, Bool.or_eq_true]
        exact Or.inl ((stopwords_shape w (hws w hw)).2 c hc)⟩)
  rw [tokenizeQuery_eq, hlow, hplat, hruns]
  rw [List.filter_eq_nil_iff.mpr ?hf]
  · rfl
  case hf =>
    intro t ht
    have hct : STOPWORDS.contains t = true := List.elem_eq_true_of_mem (hws t ht)
    simp only [hct, Bool.not_true, Bool.false_and, Bool.and_eq_true, decide_eq_true_eq]
    simp

/-! ## Facts about the scoring components -/

theorem bmCount_nil (tok : List Char) : bmCount tok [] = 0 := rfl

theorem kwScore_nil {toks : List String} {s : String} (hs : s.data = []) :
    kwScore toks s = 0 := by
  apply List.sum_eq_zero
  intro x hx
  rcases List.mem_map.mp hx with ⟨t, -, ht⟩
  rw [← ht, hs, bmCount_nil]

theorem phraseBonus_nonneg (toks : List String) (s : String) :
    0 ≤ phraseBonus toks s := by
  unfold phraseBonus
  split <;> simp

theorem phraseBonus_le (toks : List String) (s : String) :
    phraseBonus toks s ≤ 5 := by
  unfold phraseBonus
  split <;> simp

theorem platformAdj_bonus {ql plat : String} (h1 : plat ≠ "UNKNOWN")
    (h2 : isSubstr (strLower plat) ql = true) : platformAdj ql plat = 10 := by
  unfold platformAdj
  rw [if_pos (by simp [h1, h2])]

theorem platformAdj_nobonus_nonpos {ql plat : String}
    (h : ¬(plat ≠ "UNKNOWN" ∧ isSubstr (strLower plat) ql = true)) :
    platformAdj ql plat ≤ 0 := by
  unfold platformAdj
  rw [if_neg (by
    simp only [Bool.and_eq_true, bne_iff_ne, ne_eq]
    intro hc
    exact h ⟨hc.1, hc.2⟩)]
  split <;> simp

theorem phraseStr_data_ne_nil {query : String}
    (hlen : 2 ≤ (tokenizeQuery query).length) :
    (phraseStr (tokenizeQuery query)).data ≠ [] := by
  cases hq : tokenizeQuery query with
  | nil => rw [hq] at hlen; simp at hlen
  | cons t0 ts =>
    cases ts with
    | nil => rw [hq] at hlen; simp at hlen
    | cons t1 rest =>
      have ht0 : t0 ∈ tokenizeQuery query := by rw [hq]; simp
      have hne := tokenizeQuery_ne_nil ht0
      unfold phraseStr
      rw [show (t0 :: t1 :: rest).take 3 = t0 :: t1 :: rest.take 1 from rfl,
        data_spaceJoin_cons]
      simp [hne]

theorem isSubstr_empty_right {p s : String} (hp : p.data ≠ []) (hs : s.data = []) :
    isSubstr p s = false := by
  unfold isSubstr
  rw [hs]
  show p.data.isEmpty = false
  simpa using hp

theorem phraseBonus_empty_text {query : String} {s : String}
    (hlen : 2 ≤ (tokenizeQuery query).length) (hs : s.data = []) :
    phraseBonus (tokenizeQuery query) s = 0 := by
  unfold phraseBonus
  rw [if_neg]
  simp only [Bool.and_eq_true, decide_eq_true_eq, not_and]
  intro _
  rw [isSubstr_empty_right (phraseStr_data_ne_nil hlen) hs]
  simp

theorem scoreText_empty_text (query plat : String) :
    scoreText (strLower query) (tokenizeQuery query) "" plat
      = platformAdj (strLower query) plat := by
  rw [scoreText_eq]
  have hdata : (strLower "").data = [] := rfl
  rw [kwScore_nil hdata]
  by_cases hlen : 2 ≤ (tokenizeQuery query).length
  · rw [phraseBonus_empty_text hlen hdata]
    simp
  · unfold phraseBonus
    rw [if_neg (by simp only [Bool.and_eq_true, decide_eq_true_eq]; tauto)]
    simp

/-! ## Structure of the search pipeline -/

theorem scoreAll_some_facts {ql : String} {toks : List String} :
    ∀ {kb : List Chunk} {scored : List (Int × Chunk)},
      scoreAll ql toks kb = some scored →
      scored.map Prod.snd = kb ∧ ∀ p ∈ scored, scoreChunk? ql toks p.2 = some p.1 := by
  intro kb
  induction kb with
  | nil =>
    intro scored h
    simp only [scoreAll] at h
    injection h with h
    subst h
    simp
  | cons c cs ih =>
    intro scored h
    simp only [scoreAll] at h
    cases hsc : scoreChunk? ql toks c with
    | none => rw [hsc] at h; simp at h
    | some s =>
      rw [hsc] at h
      cases hrest : scoreAll ql toks cs with
      | none => rw [hrest] at h; simp at h
      | some r =>
        rw [hrest] at h
        dsimp only at h
        injection h with h
        subst h
        obtain ⟨h1, h2⟩ := ih hrest
        refine ⟨by simp [h1], ?_⟩
        intro p hp
        rcases List.mem_cons.mp hp with hp | hp
        · subst hp; exact hsc
        · exact h2 p hp

theorem scoreAll_total {ql : String} {toks : List String} :
    ∀ {kb : List Chunk}, (∀ c ∈ kb, c.text ≠ none) →
      ∃ scored, scoreAll ql toks kb = some scored := by
  intro kb
  induction kb with
  | nil => exact fun _ => ⟨[], rfl⟩
  | cons c cs ih =>
    intro h
    obtain ⟨r, hr⟩ := ih (fun x hx => h x (List.mem_cons_of_mem c hx))
    have hc := h c (List.mem_cons_self c cs)
    cases ht : c.text with
    | none => exact absurd ht hc
    | some t =>
      refine ⟨(scoreText ql toks t (c.platform.getD "UNKNOWN"), c) :: r, ?_⟩
      simp only [scoreAll, scoreChunk?, ht, hr]
      rfl

theorem scoreAll_mem_pair {ql : String} {toks : List String} {kb : List Chunk}
    {scored : List (Int × Chunk)} {c : Chunk} {s : Int}
    (h : scoreAll ql toks kb = some scored) (hc : c ∈ kb)
    (hs : scoreChunk? ql toks c = some s) : (s, c) ∈ scored := by
  obtain ⟨h1, h2⟩ := scoreAll_some_facts h
  rw [← h1] at hc
  rcases List.mem_map.mp hc with ⟨p, hp, hpc⟩
  have := h2 p hp
  rw [hpc, hs] at this
  injection this with h3
  have : p = (s, c) := by
    cases p
    simp_all
  rw [← this]
  exact hp

theorem search_empty_tokens {query : String} {kb : List Chunk} {k : Nat}
    (h : (tokenizeQuery query).isEmpty = true) :
    weightedKeywordSearch query kb k = some [] := by
  rw [weightedKeywordSearch_eq, if_pos h]

theorem search_result_struct {query : String} {kb : List Chunk} {k : Nat}
    {res : List Chunk} (h : weightedKeywordSearch query kb k = some res)
    (hne : (tokenizeQuery query).isEmpty = false) :
    ∃ scored, scoreAll (strLower query) (tokenizeQuery query) kb = some scored ∧
      res = ((((scored.filter (fun p => 3 ≤ p.1)).insertionSort scoreGe)).take k).map
        Prod.snd := by
  rw [weightedKeywordSearch_eq, if_neg (by simp [hne])] at h
  cases hsc : scoreAll (strLower query) (tokenizeQuery query) kb with
  | none => rw [hsc] at h; simp at h
  | some scored =>
    rw [hsc] at h
    dsimp only at h
    injection h with h
    exact ⟨scored, rfl, h.symm⟩

/-! ## Stability and sortedness of the descending sort -/

theorem filter_score_orderedInsert (v : Int) (x : Int × Chunk) (l : List (Int × Chunk)) :
    (List.orderedInsert scoreGe x l).filter (fun p => p.1 == v)
      = if x.1 = v then x :: l.filter (fun p => p.1 == v)
        else l.filter (fun p => p.1 == v) := by
  induction l with
  | nil =>
    simp only [List.orderedInsert, List.filter_cons, List.filter_nil]
    by_cases hx : x.1 = v
    · rw [if_pos hx, if_pos (beq_iff_eq.mpr hx)]
    · rw [if_neg hx, if_neg (by simp [beq_eq_false_iff_ne.mpr hx])]
  | cons y ys ih =>
    simp only [List.orderedInsert]
    by_cases hxy : scoreGe x y
    · rw [if_pos hxy]
      by_cases hx : x.1 = v
      · rw [if_pos hx]
        simp only [List.filter_cons, if_pos (show (x.1 == v) = true from beq_iff_eq.mpr hx)]
      · rw [if_neg hx]
        simp only [List.filter_cons,
          if_neg (show ¬(x.1 == v) = true by simp [beq_eq_false_iff_ne.mpr hx])]
    · rw [if_neg hxy]
      simp only [List.filter_cons]
      rw [ih]
      by_cases hy : y.1 = v
      · have hx : x.1 ≠ v := by
          intro hx
          exact hxy (by unfold scoreGe; rw [hy, hx])
        simp [beq_iff_eq, hy, hx]
      · by_cases hx : x.1 = v
        · simp [beq_iff_eq, hy, hx]
        · simp [beq_iff_eq, hy, hx]

theorem filter_score_insertionSort (v : Int) (l : List (Int × Chunk)) :
    (l.insertionSort scoreGe).filter (fun p => p.1 == v)
      = l.filter (fun p => p.1 == v) := by
  induction l with
  | nil => rfl
  | cons x xs ih =>
    show (List.orderedInsert scoreGe x (xs.insertionSort scoreGe)).filter _ = _
    rw [filter_score_orderedInsert]
    by_cases hx : x.1 = v
    · rw [if_pos hx, ih]
      simp only [List.filter_cons, if_pos (show (x.1 == v) = true from beq_iff_eq.mpr hx)]
    · rw [if_neg hx, ih]
      simp only [List.filter_cons,
        if_neg (show ¬(x.1 == v) = true by simp [beq_eq_false_iff_ne.mpr hx])]

theorem filter_take_isPrefix {α : Type} (p : α → Bool) (l : List α) (n : Nat) :
    List.IsPrefix ((l.take n).filter p) (l.filter p) :=
  ⟨(l.drop n).filter p, by rw [← List.filter_append, List.take_append_drop]⟩

/-! ## The ranking engine: a strictly higher-scoring chunk is placed strictly
earlier in the returned list. -/

theorem rank_engine {query : String} {kb : List Chunk} {k : Nat} {res : List Chunk}
    {a b : Chunk} {sa sb : Int}
    (h : weightedKeywordSearch query kb k = some res)
    (ha : a ∈ kb)
    (hsa : scoreChunk? (strLower query) (tokenizeQuery query) a = some sa)
    (hsb : scoreChunk? (strLower query) (tokenizeQuery query) b = some sb)
    (hab : sb < sa) (hbres : b ∈ res) :
    a ∈ res ∧ res.indexOf a < res.indexOf b := by
  cases hne : (tokenizeQuery query).isEmpty with
  | true =>
    rw [search_empty_tokens hne] at h
    injection h with h
    rw [← h] at hbres
    simp at hbres
  | false =>
    obtain ⟨scored, hsc, hres⟩ := search_result_struct h hne
    obtain ⟨hmap, hinv⟩ := scoreAll_some_facts hsc
    subst hres
    set kept := scored.filter (fun p => 3 ≤ p.1) with hkept
    set sorted := kept.insertionSort scoreGe with hsorted
    set L := sorted.take k with hL
    have hinv2 : ∀ p ∈ L, scoreChunk? (strLower query) (tokenizeQuery query) p.2
        = some p.1 := by
      intro p hp
      apply hinv
      have h1 : p ∈ sorted := (List.take_sublist k sorted).subset hp
      have h2 : p ∈ kept := (List.mem_insertionSort scoreGe).mp h1
      exact (List.mem_filter.mp h2).1
    have hLsorted : List.Sorted scoreGe L := by
      have h1 : sorted.Pairwise scoreGe := List.sorted_insertionSort scoreGe kept
      exact h1.sublist (List.take_sublist k sorted)
    rcases List.mem_map.mp hbres with ⟨pb, hpbL, hpb2⟩
    have hpb1 : pb.1 = sb := by
      have := hinv2 pb hpbL
      rw [hpb2, hsb] at this
      injection this with h3
      exact h3.symm
    have hpbL' : (sb, b) ∈ L := by
      have heq : pb = (sb, b) := by
        cases pb
        simp_all
      rw [← heq]
      exact hpbL
    have hsb3 : 3 ≤ sb := by
      have h1 : (sb, b) ∈ sorted := (List.take_sublist k sorted).subset hpbL'
      have h2 : (sb, b) ∈ kept := (List.mem_insertionSort scoreGe).mp h1
      simpa using (List.mem_filter.mp h2).2
    have hpaS : (sa, a) ∈ sorted := by
      apply (List.mem_insertionSort scoreGe).mpr
      apply List.mem_filter.mpr
      refine ⟨scoreAll_mem_pair hsc ha hsa, by simp; omega⟩
    rcases List.mem_iff_get.mp hpaS with ⟨ia, hia⟩
    rcases List.mem_iff_get.mp hpbL' with ⟨jb, hjb⟩
    have hjb' : jb.1 < sorted.length := by
      have := jb.2
      simp only [hL, List.length_take] at this
      omega
    have hgetjb : sorted.get ⟨jb.1, hjb'⟩ = (sb, b) := by
      rw [← hjb, List.get_eq_getElem, List.get_eq_getElem]
      exact (List.getElem_take sorted).symm
    have hialt : ia.1 < jb.1 := by
      rcases Nat.lt_trichotomy ia.1 jb.1 with hlt | heq | hgt
      · exact hlt
      · exfalso
        have heq2 : (sa, a) = (sb, b) := by
          rw [← hia, ← hgetjb]
          congr 1
          exact Fin.ext heq
        have : sa = sb := by injection heq2
        omega
      · exfalso
        have hrel := (List.sorted_insertionSort scoreGe kept).rel_get_of_lt
          (show (⟨jb.1, hjb'⟩ : Fin sorted.length) < ia from hgt)
        rw [hia, hgetjb] at hrel
        unfold scoreGe at hrel
        simp only at hrel
        omega
    have hiaL : ia.1 < L.length := by
      simp only [hL, List.length_take]
      have := jb.2
      simp only [hL, List.length_take] at this
      omega
    have hgetia : L.get ⟨ia.1, hiaL⟩ = (sa, a) := by
      rw [← hia, List.get_eq_getElem, List.get_eq_getElem]
      exact List.getElem_take sorted
    have hpaL : (sa, a) ∈ L := by
      rw [← hgetia]
      exact List.get_mem L ia.1 hiaL
    have hares : a ∈ L.map Prod.snd := List.mem_map.mpr ⟨(sa, a), hpaL, rfl⟩
    refine ⟨hares, ?_⟩
    have hpos : ∀ (i j : Fin (L.map Prod.snd).length),
        (L.map Prod.snd).get i = a → (L.map Prod.snd).get j = b → i.1 < j.1 := by
      intro i j hi hj
      have hiL : i.1 < L.length := by have := i.2; simpa using this
      have hjL : j.1 < L.length := by have := j.2; simpa using this
      have hgi : (L.map Prod.snd).get i = (L.get ⟨i.1, hiL⟩).2 := by
        rw [List.get_eq_getElem, List.get_eq_getElem]
        exact List.getElem_map Prod.snd
      have hgj : (L.map Prod.snd).get j = (L.get ⟨j.1, hjL⟩).2 := by
        rw [List.get_eq_getElem, List.get_eq_getElem]
        exact List.getElem_map Prod.snd
      have hsi : (L.get ⟨i.1, hiL⟩).1 = sa := by
        have hh := hinv2 _ (List.get_mem L i.1 hiL)
        rw [← hgi, hi, hsa] at hh
        injection hh with h3
        exact h3.symm
      have hsj : (L.get ⟨j.1, hjL⟩).1 = sb := by
        have hh := hinv2 _ (List.get_mem L j.1 hjL)
        rw [← hgj, hj, hsb] at hh
        injection hh with h3
        exact h3.symm
      rcases Nat.lt_trichotomy i.1 j.1 with hlt | heq | hgt
      · exact hlt
      · exfalso
        have : sa = sb := by
          rw [← hsi, ← hsj]
          congr 2
          exact Fin.ext heq
        omega
      · exfalso
        have hrel := hLsorted.rel_get_of_lt
          (show (⟨j.1, hjL⟩ : Fin L.length) < ⟨i.1, hiL⟩ from hgt)
        unfold scoreGe at hrel
        rw [hsi, hsj] at hrel
        omega
    have haidx := List.indexOf_lt_length.mpr hares
    have hbidx := List.indexOf_lt_length.mpr hbres
    exact hpos ⟨(L.map Prod.snd).indexOf a, haidx⟩ ⟨(L.map Prod.snd).indexOf b, hbidx⟩
      (List.indexOf_get haidx) (List.indexOf_get hbidx)

/-! ## Small helpers for the claim theorems -/

theorem scoreChunk?_of_text {ql : String} {toks : List String} {c : Chunk} {t : String}
    (ht : c.text = some t) :
    scoreChunk? ql toks c = some (scoreText ql toks t (c.platform.getD "UNKNOWN")) := by
  simp [scoreChunk?, ht]

theorem scoreAll_none_of_missing {ql : String} {toks : List String} :
    ∀ {kb : List Chunk} {c : Chunk}, c ∈ kb → c.text = none →
      scoreAll ql toks kb = none := by
  intro kb
  induction kb with
  | nil => intro c hc; simp at hc
  | cons c0 cs ih =>
    intro c hc ht
    rcases List.mem_cons.mp hc with hc | hc
    · subst hc
      simp [scoreAll, scoreChunk?, ht]
    · simp only [scoreAll]
      cases hs0 : scoreChunk? ql toks c0 with
      | none => rfl
      | some s0 =>
        rw [ih hc ht]

theorem formatContext_eq (chunks : List Chunk) :
    formatContext chunks =
      if chunks.isEmpty then "No relevant context found."
      else String.intercalate "\n\n" (chunks.enum.map (fun p => sectionOf (p.1 + 1) p.2)) :=
  rfl

/-! ## Claim theorems -/

/-- C3: for a chunk whose platform tag is not `UNKNOWN`, the score adjustment
is exactly `+10` when the lowercased tag occurs as a substring of the raw
lowercased query; otherwise it is exactly `-5` when the query contains at
least one surface form from the fixed list `[ah-1, rc-12, uh-1, oh-58, c-12,
ch-47, uh-60]` that is not a substring of the lowercased tag (applied once,
never twice), and exactly `0` when no such mismatching form occurs; the final
chunk score is the keyword count plus this adjustment plus the phrase bonus. -/
theorem spec_c3 (ql plat : String) (hp : plat ≠ "UNKNOWN") :
    (isSubstr (strLower plat) ql = true → platformAdj ql plat = 10) ∧
    (isSubstr (strLower plat) ql = false →
      (PLATFORM_SURFACE_FORMS.any
          (fun pt => isSubstr pt ql && !isSubstr pt (strLower plat)) = true →
        platformAdj ql plat = -5) ∧
      (PLATFORM_SURFACE_FORMS.any
          (fun pt => isSubstr pt ql && !isSubstr pt (strLower plat)) = false →
        platformAdj ql plat = 0)) ∧
    PLATFORM_SURFACE_FORMS = ["ah-1", "rc-12", "uh-1", "oh-58", "c-12", "ch-47", "uh-60"] ∧
    (∀ toks text, scoreText ql toks text plat
      = (kwScore toks (strLower text) : Int) + platformAdj ql plat
        + phraseBonus toks (strLower text)) := by
  have hpb : (plat != "UNKNOWN") = true := by simpa using hp
  refine ⟨?_, ?_, rfl, fun toks text => scoreText_eq ql toks text plat⟩
  · intro h2
    exact platformAdj_bonus hp h2
  · intro h2
    constructor
    · intro h3
      unfold platformAdj
      rw [if_neg (by simp [h2]), if_pos (by simp [hpb, h3])]
    · intro h3
      unfold platformAdj
      rw [if_neg (by simp [h2]), if_neg (by simp [h3])]

/-- Witness for C3 at a concrete input: platform tag `AH-1`, query
`"ah-1 oil"` takes the `+10` branch. -/
theorem spec_c3_witness :
    platformAdj (strLower "AH-1 oil") "AH-1" = 10 :=
  (spec_c3 (strLower "AH-1 oil") "AH-1" (by decide)).1 (by decide)

/-- C8: tokenizing `"AH-1 oil pressure"` yields exactly
`["ah-1", "oil", "pressure"]` in that order, and the decomposed sub-parts
`"ah"` and `"1"` of the extracted platform token do not appear. -/
theorem spec_c8 :
    tokenizeQuery "AH-1 oil pressure" = ["ah-1", "oil", "pressure"] ∧
    "ah" ∉ tokenizeQuery "AH-1 oil pressure" ∧
    "1" ∉ tokenizeQuery "AH-1 oil pressure" := by
  refine ⟨by decide, ?_, ?_⟩ <;> decide

/-- C9: context assembly on the empty chunk list returns exactly the fixed
"no context" sentinel; each section's text part is the chunk text truncated
to at most 800 characters; a missing `source` renders as `"Unknown"` and a
missing `page` as `"?"`; and a non-empty list is rendered section by section,
joined by blank lines. -/
theorem spec_c9 :
    formatContext [] = "No relevant context found." ∧
    (∀ c : Chunk, (sectionText c).length ≤ 800) ∧
    (∀ (i : Nat) (c : Chunk), c.source = none → c.page = none →
      sectionOf i c = "[Source " ++ toString i ++ ": " ++ "Unknown" ++ ", Page "
        ++ "?" ++ "]\n" ++ sectionText c) ∧
    (∀ chunks : List Chunk, chunks ≠ [] →
      formatContext chunks
        = String.intercalate "\n\n"
            (chunks.enum.map (fun p => sectionOf (p.1 + 1) p.2))) := by
  refine ⟨rfl, ?_, ?_, ?_⟩
  · intro c
    show ((c.text.getD "").data.take 800).length ≤ 800
    rw [List.length_take]
    exact min_le_left _ _
  · intro i c hs hp
    unfold sectionOf pageStr
    rw [hs, hp]
    rfl
  · intro chunks hne
    rw [formatContext_eq, if_neg (by simpa using hne)]

/-- Witness for C9 at a concrete chunk with missing source and page fields. -/
theorem spec_c9_witness :
    formatContext [] = "No relevant context found." ∧
    (sectionText { text := some "Engine oil." } : String).length ≤ 800 ∧
    sectionOf 1 { text := some "Engine oil." }
      = "[Source " ++ toString 1 ++ ": " ++ "Unknown" ++ ", Page " ++ "?" ++ "]\n"
        ++ sectionText { text := some "Engine oil." } ∧
    formatContext [{ text := some "Engine oil." }]
      = String.intercalate "\n\n"
          ([{ text := some "Engine oil." }].enum.map (fun p => sectionOf (p.1 + 1) p.2)) :=
  ⟨spec_c9.1, spec_c9.2.1 _, spec_c9.2.2.1 1 _ rfl rfl,
    spec_c9.2.2.2 _ (by simp)⟩

/-- C10: because the platform bonus test is substring containment of the tag
in the query rather than tag equality, a query containing `"rc-12"` gives a
`C-12`-tagged chunk the full `+10` bonus (identical to an `RC-12`-tagged
chunk), and the `-5` penalty branch is never reached for it: the chunk score
is the keyword count plus `10` plus the phrase bonus. -/
theorem spec_c10 {query : String} (h : isSubstr "rc-12" (strLower query) = true) :
    platformAdj (strLower query) "C-12" = 10 ∧
    platformAdj (strLower query) "RC-12" = 10 ∧
    (∀ toks text, scoreText (strLower query) toks text "C-12"
      = (kwScore toks (strLower text) : Int) + 10 + phraseBonus toks (strLower text)) := by
  have hc12 : isSubstr (strLower "C-12") (strLower query) = true := by
    have h1 : isSubstrL (strLower "C-12").data "rc-12".data = true := by decide
    exact isSubstrL_trans h1 h
  have hrc12 : isSubstr (strLower "RC-12") (strLower query) = true := by
    have h1 : isSubstrL (strLower "RC-12").data "rc-12".data = true := by decide
    exact isSubstrL_trans h1 h
  have hb1 : platformAdj (strLower query) "C-12" = 10 :=
    platformAdj_bonus (by decide) hc12
  refine ⟨hb1, platformAdj_bonus (by decide) hrc12, ?_⟩
  intro toks text
  rw [scoreText_eq, hb1]

/-- Witness for C10 at the concrete query `"RC-12 fuel capacity"`. -/
theorem spec_c10_witness :
    platformAdj (strLower "RC-12 fuel capacity") "C-12" = 10 ∧
    platformAdj (strLower "RC-12 fuel capacity") "RC-12" = 10 :=
  ⟨(spec_c10 (by decide)).1, (spec_c10 (by decide)).2.1⟩

/-- C1 counterexample: the claim fails on the code in both directions.  A
chunk whose `text` field is absent makes `weighted_keyword_search` raise
`KeyError` (modelled as `none`), so scoring is not total and does not treat
that chunk as zero-match; and a chunk with present-but-empty text whose
platform tag matches the query scores `0 + 10 = 10 ≥ 3` and is returned, so
it is not excluded by the minimum-score rule. -/
theorem spec_c1_counterexample :
    weightedKeywordSearch "ah-1 oil"
      [{ text := none, platform := some "AH-1" }] 3 = none ∧
    weightedKeywordSearch "ah-1 oil"
      [{ text := some "", platform := some "AH-1" }] 3
      = some [{ text := some "", platform := some "AH-1" }] := by
  constructor <;> decide

/-- C1 (amended): scoring and ranking are total over corpora in which every
chunk has a `text` field present; a chunk whose present text is empty
contributes zero keyword matches and zero phrase bonus, so its score is
exactly the platform adjustment, and it is excluded by the minimum-score
rule whenever the `+10` platform bonus does not apply (the adjustment is
then at most 0 < 3); a chunk with an absent `text` field instead causes the
search to raise (`none`) whenever the query tokenizes non-trivially. -/
theorem spec_c1_amended (query : String) (kb : List Chunk) (k : Nat) :
    ((∀ c ∈ kb, c.text ≠ none) → ∃ res, weightedKeywordSearch query kb k = some res) ∧
    (∀ c : Chunk, c.text = some "" →
      scoreChunk? (strLower query) (tokenizeQuery query) c
        = some (platformAdj (strLower query) (c.platform.getD "UNKNOWN"))) ∧
    (∀ (c : Chunk) (res : List Chunk), weightedKeywordSearch query kb k = some res →
      c.text = some "" →
      platformAdj (strLower query) (c.platform.getD "UNKNOWN") ≤ 0 → c ∉ res) ∧
    (∀ c ∈ kb, c.text = none → (tokenizeQuery query).isEmpty = false →
      weightedKeywordSearch query kb k = none) := by
  have hscore : ∀ c : Chunk, c.text = some "" →
      scoreChunk? (strLower query) (tokenizeQuery query) c
        = some (platformAdj (strLower query) (c.platform.getD "UNKNOWN")) := by
    intro c ht
    rw [scoreChunk?_of_text ht, scoreText_empty_text]
  refine ⟨?_, hscore, ?_, ?_⟩
  · intro hall
    cases hne : (tokenizeQuery query).isEmpty with
    | true => exact ⟨[], search_empty_tokens hne⟩
    | false =>
      obtain ⟨scored, hsc⟩ :=
        @scoreAll_total (strLower query) (tokenizeQuery query) kb hall
      refine ⟨((((scored.filter (fun p => 3 ≤ p.1)).insertionSort scoreGe)).take k).map
        Prod.snd, ?_⟩
      rw [weightedKeywordSearch_eq, if_neg (by simp [hne]), hsc]
  · intro c res hsearch ht hadj
    intro hcres
    cases hne : (tokenizeQuery query).isEmpty with
    | true =>
      rw [search_empty_tokens hne] at hsearch
      injection hsearch with hsearch
      rw [← hsearch] at hcres
      simp at hcres
    | false =>
      obtain ⟨scored, hsc, hres⟩ := search_result_struct hsearch hne
      obtain ⟨hmap, hinv⟩ := scoreAll_some_facts hsc
      subst hres
      rcases List.mem_map.mp hcres with ⟨p, hpL, hp2⟩
      have hpkept : p ∈ scored.filter (fun p => 3 ≤ p.1) :=
        (List.mem_insertionSort scoreGe).mp
          ((List.take_sublist k _).subset hpL)
      have hp3 : 3 ≤ p.1 := by simpa using (List.mem_filter.mp hpkept).2
      have hpinv := hinv p (List.mem_filter.mp hpkept).1
      rw [hp2, hscore c ht] at hpinv
      injection hpinv with hpinv
      omega
  · intro c hc ht hne
    rw [weightedKeywordSearch_eq, if_neg (by simp [hne]),
      scoreAll_none_of_missing hc ht]

/-- Witness for C1 (amended) at concrete inputs: a present-text corpus
searches successfully; the empty-text `UNKNOWN`-platform chunk scores `0`
and is excluded; the missing-text corpus raises. -/
theorem spec_c1_amended_witness :
    (∃ res, weightedKeywordSearch "ah-1 oil" [{ text := some "oil oil oil" }] 3
      = some res) ∧
    scoreChunk? (strLower "ah-1 oil") (tokenizeQuery "ah-1 oil") { text := some "" }
      = some (platformAdj (strLower "ah-1 oil")
          (({ text := some "" } : Chunk).platform.getD "UNKNOWN")) ∧
    weightedKeywordSearch "ah-1 oil" [{ text := none, platform := some "AH-1" }] 3
      = none := by
  refine ⟨(spec_c1_amended "ah-1 oil" [{ text := some "oil oil oil" }] 3).1 (by decide),
    (spec_c1_amended "ah-1 oil" [] 3).2.1 _ rfl,
    (spec_c1_amended "ah-1 oil" [{ text := none, platform := some "AH-1" }] 3).2.2.2
      { text := none, platform := some "AH-1" } (by simp) rfl (by decide)⟩

/-- C5: a query that is empty, whitespace-only, or a space-joined sequence of
stopwords tokenizes to the empty token list, and the search then returns the
empty list for every corpus and limit — even corpora whose chunks lack `text`
fields — without scoring any chunk. -/
theorem spec_c5 (query : String)
    (h : query = "" ∨ (∀ c ∈ query.data, c = ' ' ∨ c = '\t' ∨ c = '\n' ∨ c = '\r') ∨
      ∃ ws, ws ≠ [] ∧ (∀ w ∈ ws, w ∈ STOPWORDS) ∧ query = spaceJoin ws) :
    tokenizeQuery query = [] ∧
    ∀ (kb : List Chunk) (topK : Nat), weightedKeywordSearch query kb topK = some [] := by
  have htok : tokenizeQuery query = [] := by
    rcases h with h | h | ⟨ws, hne, hws, hq⟩
    · subst h
      decide
    · apply tokenizeQuery_nil_of_nonalnum
      intro c hc
      simp only [strLower] at hc
      rcases List.mem_map.mp hc with ⟨c0, hc0, hlc⟩
      have hw := h c0 hc0
      rcases hw with hw | hw | hw | hw <;> subst hw <;> rw [← hlc] <;> decide
    · subst hq
      exact tokenizeQuery_nil_of_stopwords hne hws
  refine ⟨htok, ?_⟩
  intro kb topK
  exact search_empty_tokens (by simp [htok])

/-- Witness for C5 at the concrete stopword-only query `"what is the"`. -/
theorem spec_c5_witness :
    tokenizeQuery "what is the" = [] ∧
    weightedKeywordSearch "what is the" [{ text := none }] 3 = some [] := by
  have h := spec_c5 "what is the"
    (Or.inr (Or.inr ⟨["what", "is", "the"], by simp, by decide, rfl⟩))
  exact ⟨h.1, h.2 [{ text := none }] 3⟩

/-- C2: for any query and corpus, a chunk whose (non-`UNKNOWN`) platform tag
occurs lowercased in the lowercased query is ranked at or above (in fact,
strictly above) every chunk that does not receive the platform bonus but has
an equal keyword-frequency score, whenever the latter appears in the result:
the bonused chunk also appears, at a strictly smaller index. -/
theorem spec_c2 {query : String} {kb : List Chunk} {k : Nat} {res : List Chunk}
    {a b : Chunk} {ta tb : String}
    (h : weightedKeywordSearch query kb k = some res)
    (ha : a ∈ kb)
    (hta : a.text = some ta) (htb : b.text = some tb)
    (hkw : kwScore (tokenizeQuery query) (strLower ta)
        = kwScore (tokenizeQuery query) (strLower tb))
    (hbonusA : a.platform.getD "UNKNOWN" ≠ "UNKNOWN" ∧
      isSubstr (strLower (a.platform.getD "UNKNOWN")) (strLower query) = true)
    (hnoB : ¬(b.platform.getD "UNKNOWN" ≠ "UNKNOWN" ∧
      isSubstr (strLower (b.platform.getD "UNKNOWN")) (strLower query) = true))
    (hbres : b ∈ res) :
    a ∈ res ∧ res.indexOf a < res.indexOf b := by
  have hsa : scoreChunk? (strLower query) (tokenizeQuery query) a
      = some (scoreText (strLower query) (tokenizeQuery query) ta
          (a.platform.getD "UNKNOWN")) := scoreChunk?_of_text hta
  have hsb : scoreChunk? (strLower query) (tokenizeQuery query) b
      = some (scoreText (strLower query) (tokenizeQuery query) tb
          (b.platform.getD "UNKNOWN")) := scoreChunk?_of_text htb
  have hlt : scoreText (strLower query) (tokenizeQuery query) tb
        (b.platform.getD "UNKNOWN")
      < scoreText (strLower query) (tokenizeQuery query) ta
        (a.platform.getD "UNKNOWN") := by
    have hadjA := platformAdj_bonus hbonusA.1 hbonusA.2
    have hadjB := platformAdj_nobonus_nonpos hnoB
    have hphrA := phraseBonus_nonneg (tokenizeQuery query) (strLower ta)
    have hphrB := phraseBonus_le (tokenizeQuery query) (strLower tb)
    rw [scoreText_eq, scoreText_eq, hadjA, hkw]
    omega
  exact rank_engine h ha hsa hsb hlt hbres

/-- Witness for C2: query `"ah-1 oil"` over a two-chunk corpus where the
off-platform chunk comes first in the corpus and both texts have equal
keyword counts; the `AH-1` chunk is returned first. -/
theorem spec_c2_witness :
    ({ text := some "oil oil oil", platform := some "AH-1" } : Chunk) ∈
      ([{ text := some "oil oil oil", platform := some "AH-1" },
        { text := some "oil oil oil" }] : List Chunk) ∧
    ([{ text := some "oil oil oil", platform := some "AH-1" },
      { text := some "oil oil oil" }] : List Chunk).indexOf
        { text := some "oil oil oil", platform := some "AH-1" }
      < ([{ text := some "oil oil oil", platform := some "AH-1" },
          { text := some "oil oil oil" }] : List Chunk).indexOf
          { text := some "oil oil oil" } :=
  @spec_c2 "ah-1 oil"
    [{ text := some "oil oil oil" },
     { text := some "oil oil oil", platform := some "AH-1" }] 3
    [{ text := some "oil oil oil", platform := some "AH-1" },
     { text := some "oil oil oil" }]
    { text := some "oil oil oil", platform := some "AH-1" }
    { text := some "oil oil oil" }
    "oil oil oil" "oil oil oil"
    (by decide) (by decide) rfl rfl rfl (by decide) (by decide) (by decide)

/-- C4: ties preserve corpus order.  For every score value `v`, the chunks of
the result whose score is `v` form a prefix of the corpus's chunks of score
`v` taken in corpus order — so the stable descending sort never reorders
equally scored chunks relative to the corpus (insertion) order. -/
theorem spec_c4 {query : String} {kb : List Chunk} {k : Nat} {res : List Chunk}
    (h : weightedKeywordSearch query kb k = some res) (v : Int) :
    List.IsPrefix
      (res.filter
        (fun c => scoreChunk? (strLower query) (tokenizeQuery query) c == some v))
      (kb.filter
        (fun c => scoreChunk? (strLower query) (tokenizeQuery query) c == some v)) := by
  cases hne : (tokenizeQuery query).isEmpty with
  | true =>
    rw [search_empty_tokens hne] at h
    injection h with h
    rw [← h]
    exact List.nil_prefix
  | false =>
    obtain ⟨scored, hsc, hres⟩ := search_result_struct h hne
    obtain ⟨hmap, hinv⟩ := scoreAll_some_facts hsc
    subst hres
    set kept := scored.filter (fun p => 3 ≤ p.1) with hkept
    set sorted := kept.insertionSort scoreGe with hsorted
    have hstep : ∀ (l : List (Int × Chunk)),
        (∀ p ∈ l, scoreChunk? (strLower query) (tokenizeQuery query) p.2 = some p.1) →
        l.filter (fun p =>
            scoreChunk? (strLower query) (tokenizeQuery query) p.2 == some v)
          = l.filter (fun p => p.1 == v) := by
      intro l hl
      apply List.filter_congr
      intro p hp
      rw [hl p hp]
      rfl
    have hL1 : ((sorted.take k).map Prod.snd).filter
        (fun c => scoreChunk? (strLower query) (tokenizeQuery query) c == some v)
        = ((sorted.take k).filter (fun p => p.1 == v)).map Prod.snd := by
      rw [List.filter_map]
      congr 1
      apply hstep
      intro p hp
      exact hinv p ((List.mem_filter.mp ((List.mem_insertionSort scoreGe).mp
        ((List.take_sublist k sorted).subset hp))).1)
    have hR1 : kb.filter
        (fun c => scoreChunk? (strLower query) (tokenizeQuery query) c == some v)
        = (scored.filter (fun p => p.1 == v)).map Prod.snd := by
      rw [← hmap, List.filter_map]
      congr 1
      exact hstep scored hinv
    rw [hL1, hR1]
    by_cases hv : 3 ≤ v
    · have hkeptv : sorted.filter (fun p => p.1 == v)
          = scored.filter (fun p => p.1 == v) := by
        rw [hsorted, filter_score_insertionSort, hkept, List.filter_filter]
        apply List.filter_congr
        intro p hp
        cases hpv : (p.1 == v) with
        | true =>
          have : p.1 = v := beq_iff_eq.mp hpv
          simp [this, hv]
        | false => simp
      have hpre : List.IsPrefix ((sorted.take k).filter (fun p => p.1 == v))
          (scored.filter (fun p => p.1 == v)) := by
        rw [← hkeptv]
        exact filter_take_isPrefix _ sorted k
      exact hpre.map Prod.snd
    · have hnil : (sorted.take k).filter (fun p => p.1 == v) = [] := by
        apply List.filter_eq_nil_iff.mpr
        intro p hp
        have hpkept : p ∈ kept := (List.mem_insertionSort scoreGe).mp
          ((List.take_sublist k sorted).subset hp)
        have hp3 : 3 ≤ p.1 := by simpa using (List.mem_filter.mp hpkept).2
        intro hpv
        have : p.1 = v := beq_iff_eq.mp hpv
        omega
      rw [hnil]
      exact List.nil_prefix

/-- Witness for C4 at the concrete query and corpus of the C2 scenario, with
score value 3. -/
theorem spec_c4_witness :
    List.IsPrefix
      (([{ text := some "oil oil oil", platform := some "AH-1" },
         { text := some "oil oil oil" }] : List Chunk).filter
        (fun c => scoreChunk? (strLower "ah-1 oil") (tokenizeQuery "ah-1 oil") c
          == some 3))
      (([{ text := some "oil oil oil" },
         { text := some "oil oil oil", platform := some "AH-1" }] : List Chunk).filter
        (fun c => scoreChunk? (strLower "ah-1 oil") (tokenizeQuery "ah-1 oil") c
          == some 3)) :=
  @spec_c4 "ah-1 oil"
    [{ text := some "oil oil oil" },
     { text := some "oil oil oil", platform := some "AH-1" }] 3
    [{ text := some "oil oil oil", platform := some "AH-1" },
     { text := some "oil oil oil" }]
    (by decide) 3

/-- C6: for every query, corpus and limit, a successful search returns at
most `limit` chunks, all drawn from the corpus, with no duplicates (under the
data-model invariant that corpus chunk ids are unique), every returned
chunk's score is at least the threshold 3, and an empty corpus yields an
empty result. -/
theorem spec_c6 {query : String} {kb : List Chunk} {k : Nat} {res : List Chunk}
    (h : weightedKeywordSearch query kb k = some res) :
    res.length ≤ k ∧ (∀ c ∈ res, c ∈ kb) ∧
    ((kb.map Chunk.id).Nodup → res.Nodup) ∧
    (∀ c ∈ res, ∃ s, scoreChunk? (strLower query) (tokenizeQuery query) c = some s
      ∧ 3 ≤ s) ∧
    (kb = [] → res = []) := by
  cases hne : (tokenizeQuery query).isEmpty with
  | true =>
    rw [search_empty_tokens hne] at h
    injection h with h
    subst h
    simp
  | false =>
    obtain ⟨scored, hsc, hres⟩ := search_result_struct h hne
    obtain ⟨hmap, hinv⟩ := scoreAll_some_facts hsc
    subst hres
    set kept := scored.filter (fun p => 3 ≤ p.1) with hkept
    set sorted := kept.insertionSort scoreGe with hsorted
    have hmemscored : ∀ p ∈ sorted.take k, p ∈ scored := by
      intro p hp
      exact (List.mem_filter.mp ((List.mem_insertionSort scoreGe).mp
        ((List.take_sublist k sorted).subset hp))).1
    refine ⟨?_, ?_, ?_, ?_, ?_⟩
    · rw [List.length_map, List.length_take]
      exact min_le_left _ _
    · intro c hc
      rcases List.mem_map.mp hc with ⟨p, hp, hp2⟩
      rw [← hp2, ← hmap]
      exact List.mem_map.mpr ⟨p, hmemscored p hp, rfl⟩
    · intro hids
      have hkbnodup : kb.Nodup := hids.of_map
      have hscored : scored.Nodup := by
        rw [← hmap] at hkbnodup
        exact hkbnodup.of_map
      have hkeptnodup : kept.Nodup := hscored.filter _
      have hsortednodup : sorted.Nodup :=
        ((List.perm_insertionSort scoreGe kept).symm).nodup hkeptnodup
      have htakenodup : (sorted.take k).Nodup :=
        hsortednodup.sublist (List.take_sublist k sorted)
      apply htakenodup.map_on
      intro p hp q hq hpq
      have h1 := hinv p (hmemscored p hp)
      have h2 := hinv q (hmemscored q hq)
      rw [hpq, h2] at h1
      injection h1 with h1
      cases p
      cases q
      simp_all
    · intro c hc
      rcases List.mem_map.mp hc with ⟨p, hp, hp2⟩
      refine ⟨p.1, ?_, ?_⟩
      · rw [← hp2]
        exact hinv p (hmemscored p hp)
      · have hpkept : p ∈ kept := (List.mem_insertionSort scoreGe).mp
          ((List.take_sublist k sorted).subset hp)
        simpa using (List.mem_filter.mp hpkept).2
    · intro hkb
      subst hkb
      have : scored = [] := by
        have h0 : scoreAll (strLower query) (tokenizeQuery query) [] = some [] := rfl
        rw [h0] at hsc
        injection hsc with hsc
        exact hsc.symm
      subst this
      rw [hsorted, hkept]
      simp

/-- Witness for C6 at a concrete query and two-chunk corpus with distinct
ids. -/
theorem spec_c6_witness :
    ([{ id := some "d2", text := some "oil oil oil", platform := some "AH-1" },
      { id := some "d1", text := some "oil oil oil" }] : List Chunk).length ≤ 3 ∧
    ([{ id := some "d2", text := some "oil oil oil", platform := some "AH-1" },
      { id := some "d1", text := some "oil oil oil" }] : List Chunk).Nodup ∧
    (∀ c ∈ ([{ id := some "d2", text := some "oil oil oil", platform := some "AH-1" },
      { id := some "d1", text := some "oil oil oil" }] : List Chunk),
      c ∈ ([{ id := some "d1", text := some "oil oil oil" },
        { id := some "d2", text := some "oil oil oil", platform := some "AH-1" }] :
          List Chunk)) := by
  have h := @spec_c6 "ah-1 oil"
    [{ id := some "d1", text := some "oil oil oil" },
     { id := some "d2", text := some "oil oil oil", platform := some "AH-1" }] 3
    [{ id := some "d2", text := some "oil oil oil", platform := some "AH-1" },
     { id := some "d1", text := some "oil oil oil" }]
    (by decide)
  exact ⟨h.1, h.2.2.1 (by decide), h.2.1⟩

/-- C7: scores are monotonic in keyword coverage — appending one more
space-separated occurrence of an existing query token to a chunk's text
never decreases its score — and per-token contributions count only
whole-word occurrences: a positive count exhibits an occurrence flanked by
non-word characters (or text ends), so substrings inside longer words
contribute nothing. -/
theorem spec_c7 {query : String} {tok : String} (htok : tok ∈ tokenizeQuery query)
    (t plat : String) :
    scoreText (strLower query) (tokenizeQuery query) t plat ≤
      scoreText (strLower query) (tokenizeQuery query) (t ++ " " ++ tok) plat ∧
    (∀ (tk : String) (text : List Char), tk.data ≠ [] →
      isWordChar (tk.data.headD ' ') = true → isWordChar (tk.data.getLastD ' ') = true →
      0 < bmCount tk.data text →
      ∃ u v, text = u ++ tk.data ++ v ∧ lastIsWord u = false ∧ nextIsWord v = false) := by
  constructor
  · have hlowtok : tok.data.map lowerChar = tok.data :=
      congrArg String.data (tokenizeQuery_lower htok)
    have hdata : (strLower (t ++ " " ++ tok)).data
        = (strLower t).data ++ ' ' :: tok.data := by
      show ((t ++ " " ++ tok).data.map lowerChar) = t.data.map lowerChar ++ ' ' :: tok.data
      rw [String.data_append, String.data_append]
      rw [List.map_append, List.map_append, hlowtok]
      rw [show (" " : String).data.map lowerChar = [' '] from rfl]
      rw [List.append_assoc]
      rfl
    have hkw : kwScore (tokenizeQuery query) (strLower t)
        ≤ kwScore (tokenizeQuery query) (strLower (t ++ " " ++ tok)) := by
      unfold kwScore
      apply List.sum_le_sum
      intro tk _
      rw [hdata]
      exact bmCount_append_space_mono tk.data (strLower t).data tok.data
    have hphr : phraseBonus (tokenizeQuery query) (strLower t)
        ≤ phraseBonus (tokenizeQuery query) (strLower (t ++ " " ++ tok)) := by
      cases hsub : isSubstr (phraseStr (tokenizeQuery query)) (strLower t) with
      | false =>
        have hold : phraseBonus (tokenizeQuery query) (strLower t) = 0 := by
          unfold phraseBonus
          rw [if_neg]
          simp [hsub]
        rw [hold]
        exact phraseBonus_nonneg _ _
      | true =>
        have hsub2 : isSubstr (phraseStr (tokenizeQuery query))
            (strLower (t ++ " " ++ tok)) = true := by
          unfold isSubstr at hsub ⊢
          rw [hdata]
          exact isSubstrL_of_append hsub _
        unfold phraseBonus
        rw [hsub, hsub2]
    rw [scoreText_eq, scoreText_eq]
    have hkw2 : ((kwScore (tokenizeQuery query) (strLower t) : Nat) : Int)
        ≤ ((kwScore (tokenizeQuery query) (strLower (t ++ " " ++ tok)) : Nat) : Int) :=
      Int.ofNat_le.mpr hkw
    omega
  · intro tk text hne hhead hlast hpos
    obtain ⟨u, v, hev, hst, hen⟩ :=
      bmCountF_pos_occ text.length false text
        (show 0 < bmCountF tk.data text.length false text from hpos)
    refine ⟨u, v, hev, ?_, ?_⟩
    · rcases hst with ⟨hu, -⟩ | ⟨-, hw⟩
      · subst hu
        decide
      · rw [hhead] at hw
        simpa using hw
    · rw [hlast] at hen
      simpa using hen

/-- Witness for C7: token `"oil"` of query `"ah-1 oil"`, chunk text
`"engine"`, and the text `"boil oil"` which contains `"oil"` both as a pure
substring and as a whole word. -/
theorem spec_c7_witness :
    scoreText (strLower "ah-1 oil") (tokenizeQuery "ah-1 oil") "engine" "UNKNOWN" ≤
      scoreText (strLower "ah-1 oil") (tokenizeQuery "ah-1 oil")
        ("engine" ++ " " ++ "oil") "UNKNOWN" ∧
    ∃ u v, "boil oil".data = u ++ "oil".data ++ v ∧ lastIsWord u = false ∧
      nextIsWord v = false := by
  have h := spec_c7 (show "oil" ∈ tokenizeQuery "ah-1 oil" by decide) "engine" "UNKNOWN"
  exact ⟨h.1, h.2 "oil" "boil oil".data (by decide) (by decide) (by decide) (by decide)⟩

